import Mathlib

/-!
Verification development for the calcbot repository (`src/bot.go`).

The repository contains two components relevant to the specification:

* `Calculator` — a four-function calculator state machine over Go `big.Float`
  values (display text, two operands, a pending operator);
* `Memcached` — a TTL session store (entry map, shutdown flag, periodic
  reaper, backoff drain loop).

Modelling conventions (shallowly embedded from the Go source):

* Go strings are `List Char`; Go `map[string]cached` is an association list
  with at most one binding per key; `time.Now().UnixNano()` becomes an
  explicit `now : ℤ` argument; `time.Duration` values are integers (ns).
* `big.Float` values are modelled as exact rationals together with explicit
  rounding: every `big.Float` produced by the calculator is created with
  `SetString`/arithmetic at precision 64, so the model applies `fround p`
  (round to nearest, ties to even, `p`-bit significand, unbounded exponent)
  exactly where the Go code rounds.  `big.Float`'s exponent is 32-bit, large
  enough that overflow to infinity is unreachable for any display the state
  machine can build, so finite rationals are a faithful carrier; the sign of
  a zero is dropped (the code normalises zero results and never observes the
  sign of a stored zero operand).
* Functions that mutate the receiver and return an `error` become functions
  returning the new state paired with `Option CalcErr`, so that partial
  mutation on an error path would be visible in the model.
-/

attribute [local semireducible] Rat.add Rat.mul Rat.sub Rat.inv

/-! ## Session store (`Memcached`, second variant in `src/bot.go`)

The store is payload-agnostic (`value interface{}`), so the model is
parametric in the payload type `α`. -/

/-- One `cached` entry: `value` and absolute expiry `expireAt` (ns). -/
structure Cached (α : Type) where
  value : α
  expireAt : ℤ
deriving DecidableEq

/-- `Memcached` state: the entry map (as an association list keyed by the Go
string key), the `inShutdown` flag and the configured `ttlTimeout`. -/
structure MC (α : Type) where
  items : List (String × Cached α)
  inShutdown : Bool
  ttl : ℤ
deriving DecidableEq

/-- Go map insert/overwrite `mc.items[key] = v` on the association list. -/
def mcStore (k : String) (v : Cached α) : List (String × Cached α) → List (String × Cached α)
  | [] => [(k, v)]
  | (k', v') :: rest => if k = k' then (k, v) :: rest else (k', v') :: mcStore k v rest

/-- `Memcached.Set`: if shutting down and the key is absent, silent no-op;
otherwise store the value with `expireAt = now + ttl`. -/
def mcSet (m : MC α) (now : ℤ) (k : String) (v : α) : MC α :=
  if m.inShutdown ∧ (m.items.lookup k).isNone then m
  else { m with items := mcStore k ⟨v, now + m.ttl⟩ m.items }

/-- `Memcached.Get`: return the value if the key is present and not expired
(`now > expireAt` means expired); the map is not modified (the Go method
only takes a read lock and never deletes). -/
def mcGet (m : MC α) (now : ℤ) (k : String) : Option α :=
  match m.items.lookup k with
  | none => none
  | some it => if now > it.expireAt then none else some it.value

/-- `Memcached.cleanExpiredItems`: delete every entry with `now > expireAt`. -/
def mcClean (m : MC α) (now : ℤ) : MC α :=
  { m with items := m.items.filter (fun kv => !(now > kv.2.expireAt)) }

/-- `Memcached.IsEmpty`: `len(mc.items) == 0`; no entry is removed here. -/
def mcIsEmpty (m : MC α) : Bool := m.items.isEmpty

/-- `shutdownIntervalMax = 500 * time.Millisecond` in nanoseconds. -/
def shutdownIntervalMax : ℤ := 500000000

/-- Initial `intervalBase` of `Shutdown`'s backoff: `time.Millisecond`. -/
def backoffBase0 : ℤ := 1000000

/-- One call of `Shutdown`'s `nextInterval` closure.  `base` is the current
`intervalBase`; `jitter` stands for the value of
`rand.Intn(int(intervalBase/10))`, hence satisfies `0 ≤ jitter < base / 10`.
Returns the computed sleep interval and the next `intervalBase`: the base is
doubled and capped at `shutdownIntervalMax`, the returned interval is not. -/
def nextInterval (base jitter : ℤ) : ℤ × ℤ :=
  let interval := base + jitter
  let base' := base * 2
  (interval, if base' > shutdownIntervalMax then shutdownIntervalMax else base')

/-- The sequence of sleep intervals produced by `nextInterval` from a given
starting base, one per entry of the jitter stream. -/
def backoffRun (base : ℤ) : List ℤ → List ℤ
  | [] => []
  | j :: js =>
    let r := nextInterval base j
    r.1 :: backoffRun r.2 js

/-- The base after `n` rounds of `nextInterval` starting from `base`. -/
def backoffBase (base : ℤ) : List ℤ → ℤ
  | [] => base
  | j :: js => backoffBase (nextInterval base j).2 js

/-- A jitter stream is valid when each entry is a possible value of
`rand.Intn(int(intervalBase/10))` at its round, i.e. `0 ≤ j < base / 10`
(Go integer division). -/
def validJitters (base : ℤ) : List ℤ → Prop
  | [] => True
  | j :: js => (0 ≤ j ∧ j < base / 10) ∧ validJitters (nextInterval base j).2 js

instance (base : ℤ) (js : List ℤ) : Decidable (validJitters base js) := by
  induction js generalizing base with
  | nil => exact .isTrue trivial
  | cons j js ih => exact @instDecidableAnd _ _ _ (ih _)

/-! ## Numeric layer: `big.Float` values as rationals with explicit rounding

`big.Float` keeps a binary significand of `prec` bits with round-to-nearest,
ties-to-even (the default mode, the only one the calculator uses).  All
operand values in the calculator are created at `prec = 64` (`SetString` on a
zero-precision float), and each arithmetic result is rounded to the precision
the Go code gives the receiver. -/

/-- Fuel bound for the binary-length computation.  All significands,
numerators and denominators handled by the stated theorems are far below
`2 ^ nbitsFuel`; the fuel keeps the recursion structural so that concrete
runs reduce inside the kernel. -/
def nbitsFuel : ℕ := 512

/-- `nbitsF fuel n`: number of binary digits of `n` (0 for 0), correct for
`n < 2 ^ fuel`. -/
def nbitsF : ℕ → ℕ → ℕ
  | _, 0 => 0
  | 0, _ => 1
  | fuel + 1, n => nbitsF fuel (n / 2) + 1

/-- Number of binary digits of `n` (Go `big.Int.BitLen`). -/
def nbits (n : ℕ) : ℕ := nbitsF nbitsFuel n

/-- `2 ^ e : ℚ` for an integer exponent, built so that it evaluates inside
the kernel (no `zpow`). -/
def qpow2 (e : ℤ) : ℚ :=
  if 0 ≤ e then ((2 ^ e.toNat : ℕ) : ℚ) else mkRat 1 (2 ^ (-e).toNat)

/-- `10 ^ d : ℚ`, kernel friendly. -/
def qpow10 (d : ℕ) : ℚ := ((10 ^ d : ℕ) : ℚ)

/-- Round a rational to an integer, to nearest with ties to even. -/
def rndHE (x : ℚ) : ℤ :=
  if x - (⌊x⌋ : ℚ) < 1/2 then ⌊x⌋
  else if 1/2 < x - (⌊x⌋ : ℚ) then ⌊x⌋ + 1
  else if Even ⌊x⌋ then ⌊x⌋ else ⌊x⌋ + 1

/-- Binary magnitude of a positive rational: the exponent `e` with
`2 ^ e ≤ q < 2 ^ (e + 1)` (correct under the fuel bound). -/
def ilog2p (q : ℚ) : ℤ :=
  let e0 : ℤ := (nbitsF nbitsFuel q.num.natAbs : ℤ) - (nbitsF nbitsFuel q.den : ℤ)
  if qpow2 e0 ≤ q then e0 else e0 - 1

/-- Round a positive rational to a `p`-bit significand, nearest/ties-even:
scale into `[2 ^ (p-1), 2 ^ p)`, round the significand to an integer, scale
back. -/
def froundPos (p : ℕ) (q : ℚ) : ℚ :=
  (rndHE (q * qpow2 ((p : ℤ) - 1 - ilog2p q)) : ℚ)
    * qpow2 (-((p : ℤ) - 1 - ilog2p q))

/-- Round a rational to a `p`-bit-significand binary float, nearest with
ties to even (`big.Float` default).  Ties-even rounding is symmetric under
negation, so negatives are handled through `froundPos`. -/
def fround (p : ℕ) (q : ℚ) : ℚ :=
  if q = 0 then 0
  else if q < 0 then -froundPos p (-q)
  else froundPos p q

/-- `big.Float.Int`: truncate toward zero. -/
def ratTrunc (x : ℚ) : ℤ := if 0 ≤ x then ⌊x⌋ else -⌊-x⌋

/-- Decimal digit characters of a natural number, most significant first.
Structural fuel (enough for every number below `10 ^ 32`, far beyond any
value the stated theorems touch); matches `strconv`/`big.Float` digit
output. -/
def natCharsF : ℕ → ℕ → List Char
  | 0, _ => ['0']
  | fuel + 1, n =>
    if n < 10 then [Char.ofNat (48 + n)]
    else natCharsF fuel (n / 10) ++ [Char.ofNat (48 + n % 10)]

/-- Fuel for decimal digit output: covers every value below `10 ^ 128`. -/
def natCharsFuel : ℕ := 128

/-- Decimal text of a natural number. -/
def natChars (n : ℕ) : List Char := natCharsF natCharsFuel n

/-- Decimal text of an integer (minus sign for negatives). -/
def intChars (z : ℤ) : List Char :=
  (if z < 0 then ['-'] else []) ++ natChars z.natAbs

/-- Render `scaled / 10 ^ d` in `big.Float.Text('f', d)` style: integer part,
then — when `d > 0` — a decimal point and exactly `d` fractional digits
(zero padded). -/
def fmtRender (scaled : ℤ) (d : ℕ) : List Char :=
  if d = 0 then intChars scaled
  else
    let n := scaled.natAbs
    let ip := natChars (n / 10 ^ d)
    let fp0 := natChars (n % 10 ^ d)
    let fp := List.replicate (d - fp0.length) '0' ++ fp0
    (if scaled < 0 then ['-'] else []) ++ ip ++ '.' :: fp

/-- `big.Float.Text('f', -1)` on a value of precision `p`: the smallest
number of fractional decimal digits whose (correctly rounded) decimal reads
back — that is, rounds at precision `p` — to exactly the formatted value,
rendered in fixed-point style.  Values produced by `fround p` always admit
such an exact finite expansion, bounded by the 2-adic size of the
denominator, which bounds the search. -/
def fmtShortest (p : ℕ) (v : ℚ) : List Char :=
  let dMax := nbits v.den
  let ok := fun d => decide (fround p ((rndHE (v * qpow10 d) : ℚ) / qpow10 d) = v)
  let d := ((List.range (dMax + 1)).find? ok).getD dMax
  fmtRender (rndHE (v * qpow10 d)) d

/-- `strings.TrimSuffix(text, ".0")`. -/
def trimDotZero (s : List Char) : List Char :=
  match s.reverse with
  | '0' :: '.' :: rest => rest.reverse
  | _ => s

/-- Exact rational value of a decimal string, or `none` when it is not of
the form accepted by `big.Float.SetString` restricted to plain decimals: an
optional sign, then digits with at most one decimal point and at least one
digit.  (Exponents, base prefixes and infinities, which `SetString` also
accepts, cannot occur in any display text the calculator builds, and are
outside this model.) -/
def decValue? (s : List Char) : Option ℚ :=
  let core := fun (t : List Char) =>
    if ¬ (∀ c ∈ t, ('0' ≤ c ∧ c ≤ '9') ∨ c = '.') then none
    else
      match t.splitOn '.' with
      | [ip] => if ip = [] then none else
          some (mkRat (digitsVal ip) 1)
      | [ip, fp] => if ip = [] ∧ fp = [] then none else
          some (mkRat (digitsVal ip * 10 ^ fp.length + digitsVal fp) (10 ^ fp.length))
      | _ => none
  match s with
  | '-' :: t => (core t).map (fun q => -q)
  | '+' :: t => core t
  | t => core t
where
  /-- Value of a digit string, most significant first. -/
  digitsVal (t : List Char) : ℤ :=
    t.foldl (fun a c => 10 * a + ((c.toNat : ℤ) - 48)) 0

/-- `new(big.Float).SetString(text)` on a zero-precision receiver: parse the
exact decimal value, then round to a 64-bit significand (ties to even). -/
def parseF (s : List Char) : Option ℚ := (decValue? s).map (fround 64)

/-! ## Arithmetic engine (`Calculator` in `src/bot.go`) -/

/-- The two error values of the engine: `ErrUnsupported` and
`ErrDivisionByZero`. -/
inductive CalcErr where
  | unsupported
  | divisionByZero
deriving DecidableEq

/-- `Calculator` state.  Operand values are the exact rationals carried by
the corresponding `big.Float`s (every operand the code stores was produced
by `SetString` at precision 64, or is the fresh zero placeholder). -/
structure Calc where
  display : List Char
  op0 : Option ℚ
  op1 : Option ℚ
  oper : Option Char
deriving DecidableEq

/-- `Calculator.reset`: display `"0"`, no operator, no operands. -/
def Calc.resetC (_ : Calc) : Calc :=
  { display := ['0'], op0 := none, op1 := none, oper := none }

/-- `NewCalculator()`. -/
def initCalc : Calc := Calc.resetC ⟨[], none, none, none⟩

/-- The sentinel display texts checked by `ProcessOperand`. -/
def sentinelTexts : List (List Char) :=
  ["NaN".toList, "Inf".toList, "+Inf".toList, "-Inf".toList]

/-- First loop of `ProcessOperand`: reset when the display equals a
non-finite sentinel text. -/
def sentinelReset (c : Calc) : Calc :=
  if c.display ∈ sentinelTexts then c.resetC else c

/-- Second-operand entry step of `ProcessOperand`: when an operator is
pending and `Operands[1]` is still unset, reset the display to `"0"` and
install the fresh zero placeholder (`new(big.Float)`). -/
def operandReset (c : Calc) : Calc :=
  if c.oper ≠ none ∧ c.op1 = none then
    { c with display := ['0'], op1 := some 0 } else c

/-- Append rule of `ProcessOperand`: replace a bare `"0"` display unless the
token is `'.'`, otherwise append. -/
def operandAppend (c : Calc) (r : Char) : Calc :=
  if c.display = ['0'] ∧ r ≠ '.' then { c with display := [r] }
  else { c with display := c.display ++ [r] }

/-- `Calculator.ProcessOperand`: mirrors the Go method statement by
statement; returns the updated state and the error value. -/
def processOperand (c : Calc) (r : Char) : Calc × Option CalcErr :=
  if ¬ (('0' ≤ r ∧ r ≤ '9') ∨ (r = '.' ∧ ¬ c.display.contains '.')) then
    (c, some .unsupported)
  else
    (operandAppend (operandReset (sentinelReset c)) r, none)

/-- The operator switch of `Calculator.calculate`, returning the result
value together with the precision of the result float (`none` on division
or modulo by zero).  Precisions follow the Go code: both operands come from
`SetString` at precision 64, so `Add`, `Sub`, `Mul`, `Quo` on the fresh
result float round at 64 bits; in the `'%'` branch `SetInt` gives the
truncated quotient precision `max(BitLen, 64)` (hence is exact), and the
subsequent `Mul` and `Sub` receivers inherit the larger precision.
`quo.Int(nil)` truncates toward zero.  A symbol outside the five operator
cases leaves the zero result (the Go switch falls through). -/
def calcResult (a b : ℚ) (op : Char) : Option (ℚ × ℕ) :=
  if op = '+' then some (fround 64 (a + b), 64)
  else if op = '-' then some (fround 64 (a - b), 64)
  else if op = '*' then some (fround 64 (a * b), 64)
  else if op = '/' then
    if b = 0 then none else some (fround 64 (a / b), 64)
  else if op = '%' then
    if b = 0 then none
    else
      let quo := fround 64 (a / b)
      let t : ℤ := ratTrunc quo
      let fp := max (nbits t.natAbs) 64
      let mul := fround fp ((t : ℚ) * b)
      some (fround (max 64 fp) (a - mul), max 64 fp)
  else some (0, 64)

/-- Tail of a successful `calculate`: zero normalisation
(`SetFloat64(0)` has precision 53), full reset, and display of the
formatted result with the trailing `".0"` trimmed. -/
def finishCalc (result : ℚ) (prec : ℕ) : Calc :=
  let prec := if result = 0 then 53 else prec
  let result := if result = 0 then 0 else result
  { display := trimDotZero (fmtShortest prec result),
    op0 := none, op1 := none, oper := none }

/-- `Calculator.calculate` (the `'='` branch): `Unsupported` when
`Operands[1]` is unset or the display does not parse, otherwise store the
parsed second operand, dispatch on the operator and either fail with
`DivisionByZero` (after the operand was already stored, as in the Go code)
or reset with the formatted result.  The Go switch dereferences
`c.Operator`; on states the machine can reach, `Operands[1] ≠ nil` implies
`Operator ≠ nil` (and then `Operands[0] ≠ nil`), so the unreachable nil
dereference is not modelled and unset fields read as defaults. -/
def calculate (c : Calc) : Calc × Option CalcErr :=
  match c.op1 with
  | none => (c, some .unsupported)
  | some _ =>
    match parseF c.display with
    | none => (c, some .unsupported)
    | some b =>
      let c1 := { c with op1 := some b }
      match calcResult (c.op0.getD 0) b (c.oper.getD '?') with
      | none => (c1, some .divisionByZero)
      | some (res, prec) => (finishCalc res prec, none)

/-- `Calculator.ProcessOperator`. -/
def processOperator (c : Calc) (r : Char) : Calc × Option CalcErr :=
  if r = 'C' then ({ c with display := ['0'] }, none)
  else if r = 'T' then
    if c.display = ['0'] then (c, none)
    else
      match c.display with
      | '-' :: rest => ({ c with display := rest }, none)
      | d => ({ c with display := '-' :: d }, none)
  else if r = '=' then calculate c
  else
    if ¬ ("%/*-+".toList.contains r) ∨ c.oper ≠ none then (c, some .unsupported)
    else
      match parseF c.display with
      | none => (c, some .unsupported)
      | some v => ({ c with op0 := some v, oper := some r }, none)

/-- The keyboard dispatch in `handleCallback`: digits and `'.'` go to
`ProcessOperand`, everything else to `ProcessOperator`. -/
def applyTok (c : Calc) (r : Char) : Calc :=
  if "0123456789.".toList.contains r then (processOperand c r).1
  else (processOperator c r).1

/-- Run a token sequence from a fresh calculator. -/
def runTokens (ts : List Char) : Calc := ts.foldl applyTok initCalc

/-- One observable transition of the engine: some token was fed to
`ProcessOperand` or `ProcessOperator` (the state is kept even when the call
errors, exactly as the Go caller keeps the mutated receiver). -/
def CalcStep (c c' : Calc) : Prop :=
  ∃ r, c' = (processOperand c r).1 ∨ c' = (processOperator c r).1

/-- States reachable from `NewCalculator()`. -/
def ReachCalc (c : Calc) : Prop := Relation.ReflTransGen CalcStep initCalc c

/-- Display well-formedness maintained by the engine: an optional single
leading minus sign, then a nonempty run of digits and decimal points with at
most one point. -/
def dispOKb (s : List Char) : Prop :=
  ∃ sign body, (sign = ([] : List Char) ∨ sign = ['-']) ∧ s = sign ++ body ∧
    body ≠ [] ∧ body.count '.' ≤ 1 ∧ ∀ ch ∈ body, ('0' ≤ ch ∧ ch ≤ '9') ∨ ch = '.'

/-- Invariant of reachable calculator states: a well-formed display, a
second operand that is absent or the zero placeholder, and an operator
present whenever the second operand is. -/
def CalcInv (c : Calc) : Prop :=
  dispOKb c.display ∧ (c.op1 = none ∨ c.op1 = some 0) ∧ (c.op1 ≠ none → c.oper ≠ none)

/-- Numerator and denominator small enough for the fuelled binary log; every
quantity in the stated theorems satisfies this by orders of magnitude. -/
def QBounded (q : ℚ) : Prop :=
  q.num.natAbs < 2 ^ nbitsFuel ∧ q.den < 2 ^ nbitsFuel

/-! ## Theorems -/

section StoreLemmas

variable {α : Type}

/-- After `mcStore k v`, looking up `k` finds exactly `v`. -/
theorem mcStore_lookup_self (k : String) (v : Cached α) (l : List (String × Cached α)) :
    (mcStore k v l).lookup k = some v := by
  induction l with
  | nil => simp [mcStore, List.lookup]
  | cons hd tl ih =>
    obtain ⟨k', v'⟩ := hd
    by_cases h : k = k'
    · simp [mcStore, h, List.lookup]
    · simp only [mcStore, if_neg h, List.lookup]
      have : (k == k') = false := beq_false_of_ne h
      simp [this, ih]

end StoreLemmas

/-- C4: `Get` returns the stored value iff the key is present and
`now ≤ expire_at`, and returns absent otherwise; `Set` immediately followed
by `Get` returns the value (when the store is not draining or the key is
present, and `ttl > 0`); once the TTL has passed, `Get` returns absent even
though no reaper ran. -/
theorem mcGet_spec {α : Type} (m : MC α) (now : ℤ) (k : String) (v : α) :
    (mcGet m now k = some v ↔ ∃ e, m.items.lookup k = some ⟨v, e⟩ ∧ now ≤ e)
    ∧ (¬ (m.inShutdown = true ∧ m.items.lookup k = none) → 0 < m.ttl →
        mcGet (mcSet m now k v) now k = some v)
    ∧ (∀ e, m.items.lookup k = some ⟨v, e⟩ → now > e → mcGet m now k = none) := by
  refine ⟨?_, ?_, ?_⟩
  · unfold mcGet
    cases h : m.items.lookup k with
    | none => simp
    | some it =>
      by_cases he : now > it.expireAt
      · simp only [if_pos he]
        constructor
        · intro hc; cases hc
        · rintro ⟨e, he', hle⟩
          injection he' with he''
          have he2 : now > e := by rw [he''] at he; exact he
          omega
      · simp only [if_neg he]
        constructor
        · intro hv
          injection hv with hv
          exact ⟨it.expireAt, by rw [← hv], by omega⟩
        · rintro ⟨e, he', _⟩
          injection he' with he''
          rw [he'']
  · intro hns httl
    unfold mcSet
    have hcond : ¬ (m.inShutdown ∧ (m.items.lookup k).isNone) := by
      intro ⟨h1, h2⟩
      exact hns ⟨h1, Option.isNone_iff_eq_none.mp h2⟩
    rw [if_neg hcond]
    unfold mcGet
    simp only [mcStore_lookup_self]
    rw [if_neg (by omega)]
  · intro e he hgt
    unfold mcGet
    rw [he]
    simp only [if_pos hgt]

/-- Witness for `mcGet_spec` at a concrete store. -/
theorem mcGet_spec_witness :
    mcGet (mcSet (⟨[], false, 5⟩ : MC ℕ) 100 "k" 7) 100 "k" = some 7 :=
  (mcGet_spec (⟨[], false, 5⟩ : MC ℕ) 100 "k" 7).2.1
    (by simp) (by decide)

/-- C5: during drain, `Set` of an absent key is a complete no-op; in every
other case `Set` installs the entry for `k` with `expire_at = now + ttl`
(and changes nothing else of the store). -/
theorem mcSet_spec {α : Type} (m : MC α) (now : ℤ) (k : String) (v : α) :
    (m.inShutdown = true → m.items.lookup k = none → mcSet m now k v = m)
    ∧ (¬ (m.inShutdown = true ∧ m.items.lookup k = none) →
        (mcSet m now k v).items = mcStore k ⟨v, now + m.ttl⟩ m.items
        ∧ (mcSet m now k v).items.lookup k = some ⟨v, now + m.ttl⟩
        ∧ (mcSet m now k v).inShutdown = m.inShutdown
        ∧ (mcSet m now k v).ttl = m.ttl) := by
  constructor
  · intro hs hn
    unfold mcSet
    rw [if_pos ⟨hs, Option.isNone_iff_eq_none.mpr hn⟩]
  · intro hns
    have hcond : ¬ (m.inShutdown ∧ (m.items.lookup k).isNone) := by
      intro ⟨h1, h2⟩
      exact hns ⟨h1, Option.isNone_iff_eq_none.mp h2⟩
    unfold mcSet
    rw [if_neg hcond]
    exact ⟨rfl, mcStore_lookup_self .., rfl, rfl⟩

/-- Witness for `mcSet_spec` at a concrete store. -/
theorem mcSet_spec_witness :
    mcSet (⟨[("k", ⟨3, 10⟩)], true, 5⟩ : MC ℕ) 100 "other" 7
      = (⟨[("k", ⟨3, 10⟩)], true, 5⟩ : MC ℕ) :=
  (mcSet_spec (⟨[("k", ⟨3, 10⟩)], true, 5⟩ : MC ℕ) 100 "other" 7).1 rfl (by decide)

/-- C9: during drain, `Set` on a key that is still present — even with an
already-expired entry — overwrites it with a fresh `expire_at = now + ttl`:
the presence test in `Set` ignores expiry. -/
theorem mcSet_revive {α : Type} (m : MC α) (now : ℤ) (k : String) (v w : α) (e : ℤ) :
    m.inShutdown = true → m.items.lookup k = some ⟨w, e⟩ → e < now →
    (mcSet m now k v).items.lookup k = some ⟨v, now + m.ttl⟩ := by
  intro _ hl _
  unfold mcSet
  rw [if_neg (by simp [hl])]
  exact mcStore_lookup_self ..

/-- Witness for `mcSet_revive`: an expired entry is revived during drain. -/
theorem mcSet_revive_witness :
    (mcSet (⟨[("k", ⟨3, 10⟩)], true, 5⟩ : MC ℕ) 100 "k" 7).items.lookup "k"
      = some ⟨7, 105⟩ :=
  mcSet_revive (⟨[("k", ⟨3, 10⟩)], true, 5⟩ : MC ℕ) 100 "k" 7 3 10 rfl (by decide)
    (by decide)

/-- C6 counterexample: a store whose only entry has `expire_at = 10` at
`now = 11`: the TTL of every entry has elapsed and the reaper has not run,
`Get` already reports the entry absent, yet the entry is still in the map
and `IsEmpty` is `false` — `Get`/`IsEmpty` do not remove expired entries. -/
theorem mcIsEmpty_lazy_removal_cex :
    (∀ kv ∈ (⟨[("a", ⟨7, 10⟩)], false, 5⟩ : MC ℕ).items, (11 : ℤ) > kv.2.expireAt)
    ∧ mcGet (⟨[("a", ⟨7, 10⟩)], false, 5⟩ : MC ℕ) 11 "a" = none
    ∧ mcIsEmpty (⟨[("a", ⟨7, 10⟩)], false, 5⟩ : MC ℕ) = false := by
  refine ⟨?_, by decide, by decide⟩
  intro kv hkv
  simp only [List.mem_singleton] at hkv
  subst hkv
  decide

/-- C6 amended: expired entries are removed only by the sweep
(`cleanExpiredItems`, run by the reaper and by `Shutdown`'s loop) or by
`Close`; `Get` merely reports an expired entry as absent without removing
it, and `IsEmpty` reflects the raw map — false while any entry (expired or
not) remains, true exactly when the map is empty; after a sweep at time
`now`, the store is empty iff every entry had expired. -/
theorem mcIsEmpty_spec {α : Type} (m : MC α) (now : ℤ) :
    (mcIsEmpty m = false ↔ m.items ≠ [])
    ∧ (mcIsEmpty (mcClean m now) = true ↔ ∀ kv ∈ m.items, now > kv.2.expireAt)
    ∧ (∀ k v e, m.items.lookup k = some ⟨v, e⟩ → now > e →
        mcGet m now k = none ∧ mcIsEmpty m = false) := by
  refine ⟨?_, ?_, ?_⟩
  · unfold mcIsEmpty
    cases h : m.items with
    | nil => simp [h]
    | cons hd tl => simp [h]
  · unfold mcClean mcIsEmpty
    simp only [List.isEmpty_iff, List.filter_eq_nil_iff]
    constructor
    · intro h kv hkv
      have := h kv hkv
      simpa using this
    · intro h kv hkv
      simpa using h kv hkv
  · intro k v e hl hgt
    constructor
    · unfold mcGet
      rw [hl]
      simp only [if_pos hgt]
    · cases hm : m.items with
      | nil => rw [hm] at hl; simp [List.lookup] at hl
      | cons hd tl => simp [mcIsEmpty, hm]

/-- Witness for `mcIsEmpty_spec`: expired-but-present entry. -/
theorem mcIsEmpty_spec_witness :
    mcGet (⟨[("a", ⟨7, 10⟩)], false, 5⟩ : MC ℕ) 11 "a" = none
    ∧ mcIsEmpty (⟨[("a", ⟨7, 10⟩)], false, 5⟩ : MC ℕ) = false :=
  (mcIsEmpty_spec (⟨[("a", ⟨7, 10⟩)], false, 5⟩ : MC ℕ) 11).2.2 "a" 7 10 rfl (by decide)

/-- C8 counterexample: a run of ten backoff rounds with admissible jitters
(each `0 ≤ j < base/10`, the range of `rand.Intn(int(base/10))`): after nine
doublings the base is capped at 500 ms, and the tenth computed interval is
`500ms + 49999999ns ≈ 549.99 ms > 500 ms` — computed sleep intervals are
not capped at 500 ms. -/
theorem backoff_cap_cex :
    validJitters backoffBase0 [0, 0, 0, 0, 0, 0, 0, 0, 0, 49999999]
    ∧ (backoffRun backoffBase0 [0, 0, 0, 0, 0, 0, 0, 0, 0, 49999999]).getLast?
        = some 549999999
    ∧ (549999999 : ℤ) > shutdownIntervalMax := by
  refine ⟨by decide, by decide, by decide⟩

/-- C8 amended: each interval is `base + jitter` with `0 ≤ jitter <
base/10`; the 500 ms cap applies to the doubled *base*, not to the computed
interval, so while the base stays within `[1ms, 500ms]`, an individual
sleep interval can exceed 500 ms by the jitter, staying below 550 ms. -/
theorem backoff_interval_spec (base j : ℤ) :
    0 ≤ j → j < base / 10 → backoffBase0 ≤ base → base ≤ shutdownIntervalMax →
    base ≤ (nextInterval base j).1
    ∧ (nextInterval base j).1 ≤ 549999999
    ∧ backoffBase0 ≤ (nextInterval base j).2
    ∧ (nextInterval base j).2 ≤ shutdownIntervalMax
    ∧ ((2 * base ≤ shutdownIntervalMax → (nextInterval base j).2 = 2 * base)
        ∧ (shutdownIntervalMax < 2 * base → (nextInterval base j).2 = shutdownIntervalMax)) := by
  intro h0 hj hb1 hb2
  unfold nextInterval shutdownIntervalMax backoffBase0 at *
  simp only
  constructor
  · omega
  constructor
  · omega
  constructor
  · split <;> omega
  constructor
  · split <;> omega
  · constructor <;> intro h <;> split <;> omega

/-- C10: `ProcessOperand('.')` is rejected with `Unsupported` whenever the
current display already contains a point — the duplicate-separator check
runs on the old display, before the second-operand reset — and the engine
state is returned unchanged. -/
theorem dot_rejected_on_dotted_display (c : Calc) :
    c.display.contains '.' = true → processOperand c '.' = (c, some .unsupported) := by
  intro h
  unfold processOperand
  rw [if_pos]
  simp only [h]
  decide

/-- Witness for `dot_rejected_on_dotted_display`: after `1`, `.`, `+` the
operator is pending, the second operand has not begun, and `'.'` is still
rejected because the first operand's display contains a point. -/
theorem dot_rejected_on_dotted_display_witness :
    processOperand (runTokens "1.+".toList) '.'
      = (runTokens "1.+".toList, some .unsupported)
    ∧ (runTokens "1.+".toList).oper = some '+'
    ∧ (runTokens "1.+".toList).op1 = none
    ∧ (runTokens "1.+".toList).display = "1.".toList :=
  ⟨dot_rejected_on_dotted_display (runTokens "1.+".toList) (by decide),
    by decide, by decide, by decide⟩

set_option maxRecDepth 4000 in
set_option maxHeartbeats 1000000 in
/-- C1 counterexample: enter `7`, `±`, `%`, `2`, `=`.  The first operand is
`-7`, the second `2`; the code displays `"-1"` (the remainder with the
quotient truncated toward zero, `big.Float.Int`), while the claimed floored
remainder `-7 - 2·⌊-7/2⌋` equals `1`, whose decimal text `"1"` differs. -/
theorem modulo_floored_cex :
    (runTokens "7T%2=".toList).display = "-1".toList
    ∧ (runTokens "7T%2".toList).op0 = some (-7)
    ∧ (-7 : ℤ) - 2 * ⌊((-7 : ℚ)) / 2⌋ = 1
    ∧ intChars ((-7 : ℤ) - 2 * ⌊((-7 : ℚ)) / 2⌋) = "1".toList
    ∧ "-1".toList ≠ "1".toList :=
  ⟨by decide, by decide, by decide, by decide, by decide⟩

set_option maxRecDepth 8000 in
set_option maxHeartbeats 8000000 in
/-- C3 counterexample: enter `1`, `/`, `3`, `=`.  Both operands parse
exactly (`1` and `3`), yet the display becomes the 64-bit binary rounding
of `1/3` formatted as a finite decimal, whose exact value is not `1/3` —
the engine does not produce the exact decimal value of `a / b`. -/
theorem divide_exact_decimal_cex :
    (runTokens "1/3=".toList).display = "0.33333333333333333334".toList
    ∧ decValue? "0.33333333333333333334".toList ≠ some ((1 : ℚ)/3)
    ∧ (runTokens "1/3".toList).op0 = some 1
    ∧ parseF (runTokens "1/3".toList).display = some 3 :=
  ⟨by decide, by decide, by decide, by decide⟩

/-! ### Shape of formatted output -/

/-- Decimal digit output is never empty. -/
theorem natCharsF_ne_nil (fuel n : ℕ) : natCharsF fuel n ≠ [] := by
  cases fuel with
  | zero => simp [natCharsF]
  | succ fuel =>
    unfold natCharsF
    split
    · simp
    · simp

/-- Every character of the decimal output is a digit. -/
theorem natCharsF_digits (fuel : ℕ) : ∀ n, ∀ ch ∈ natCharsF fuel n, '0' ≤ ch ∧ ch ≤ '9' := by
  induction fuel with
  | zero =>
    intro n ch hch
    simp only [natCharsF, List.mem_singleton] at hch
    subst hch
    exact ⟨le_refl _, by decide⟩
  | succ fuel ih =>
    intro n ch hch
    unfold natCharsF at hch
    split at hch
    · next hlt =>
      simp only [List.mem_singleton] at hch
      subst hch
      generalize hn : n = m at hlt
      interval_cases m <;> exact ⟨by decide, by decide⟩
    · next hge =>
      rcases List.mem_append.mp hch with h | h
      · exact ih _ ch h
      · simp only [List.mem_singleton] at h
        subst h
        have hm : n % 10 < 10 := Nat.mod_lt _ (by norm_num)
        generalize hn : n % 10 = m at hm
        interval_cases m <;> exact ⟨by decide, by decide⟩

/-- A digit character is not a decimal point. -/
theorem digit_ne_dot {ch : Char} (h : '0' ≤ ch ∧ ch ≤ '9') : ch ≠ '.' := by
  rintro rfl
  exact absurd h.1 (by decide)

/-- A digit character is not a minus sign. -/
theorem digit_ne_minus {ch : Char} (h : '0' ≤ ch ∧ ch ≤ '9') : ch ≠ '-' := by
  rintro rfl
  exact absurd h.1 (by decide)

/-- `trimDotZero` either leaves the string unchanged or removes a final
`".0"`. -/
theorem trimDotZero_cases (s : List Char) :
    trimDotZero s = s ∨ ∃ t, s = t ++ ['.', '0'] ∧ trimDotZero s = t := by
  unfold trimDotZero
  split
  · next rest heq =>
    right
    refine ⟨rest.reverse, ?_, rfl⟩
    have := congrArg List.reverse heq
    simpa using this
  · left; rfl

/-- A string without a point is untouched by `trimDotZero`. -/
theorem trimDotZero_of_not_mem (s : List Char) (h : '.' ∉ s) : trimDotZero s = s := by
  rcases trimDotZero_cases s with h1 | ⟨t, hs, _⟩
  · exact h1
  · exact absurd (by rw [hs]; simp) h

/-- The decimal text of an integer is a well-formed display. -/
theorem dispOKb_intChars (z : ℤ) : dispOKb (intChars z) := by
  refine ⟨if z < 0 then ['-'] else [], natChars z.natAbs, ?_, rfl, natCharsF_ne_nil _ _, ?_, ?_⟩
  · split
    · right; rfl
    · left; rfl
  · have : '.' ∉ natChars z.natAbs := fun hm =>
      digit_ne_dot (natCharsF_digits _ _ _ hm) rfl
    simp [List.count_eq_zero.mpr this]
  · intro ch hch
    exact .inl (natCharsF_digits _ _ _ hch)

/-- No point occurs in integer decimal text. -/
theorem dot_not_mem_intChars (z : ℤ) : '.' ∉ intChars z := by
  intro hm
  unfold intChars at hm
  rcases List.mem_append.mp hm with h | h
  · split at h
    · simp only [List.mem_singleton] at h; cases h
    · cases h
  · exact digit_ne_dot (natCharsF_digits _ _ _ h) rfl

/-- The display shape produced by a sign, integer digits, a point and
fractional digits, after `".0"` trimming, is well formed. -/
theorem dispOKb_trim_dotted (sign ip fp : List Char)
    (hsign : sign = ([] : List Char) ∨ sign = ['-'])
    (hip : ip ≠ []) (hipd : ∀ ch ∈ ip, '0' ≤ ch ∧ ch ≤ '9')
    (hfp : fp ≠ []) (hfpd : ∀ ch ∈ fp, '0' ≤ ch ∧ ch ≤ '9') :
    dispOKb (trimDotZero (sign ++ ip ++ '.' :: fp)) := by
  have hipdot : '.' ∉ ip := fun hm => digit_ne_dot (hipd _ hm) rfl
  have hfpdot : '.' ∉ fp := fun hm => digit_ne_dot (hfpd _ hm) rfl
  rcases trimDotZero_cases (sign ++ ip ++ '.' :: fp) with h1 | ⟨t, hs, ht⟩
  · rw [h1]
    refine ⟨sign, ip ++ '.' :: fp, hsign, by simp, by simp, ?_, ?_⟩
    · simp [List.count_append, List.count_cons,
        List.count_eq_zero.mpr hipdot, List.count_eq_zero.mpr hfpdot]
    · intro ch hch
      rcases List.mem_append.mp hch with h | h
      · exact .inl (hipd _ h)
      · rcases List.mem_cons.mp h with h | h
        · exact .inr h
        · exact .inl (hfpd _ h)
  · rw [ht]
    rcases List.eq_nil_or_concat fp with rfl | ⟨fp0, c, rfl⟩
    · exact absurd rfl hfp
    rcases List.eq_nil_or_concat fp0 with rfl | ⟨fp1, c2, rfl⟩
    · -- fp = [c]: the trim fired, so the final two characters are ".0",
      -- hence c = '0' and t = sign ++ ip
      have hs' : (sign ++ ip) ++ ['.', c] = t ++ ['.', '0'] := by
        simpa using hs
      have hlen : (['.', c] : List Char).length = (['.', '0'] : List Char).length := rfl
      obtain ⟨h1, _⟩ := List.append_inj' hs' hlen
      refine ⟨sign, ip, hsign, h1.symm, hip, ?_, fun ch hch => .inl (hipd _ hch)⟩
      simp [List.count_eq_zero.mpr hipdot]
    · -- fp ends in two digits, but the trim case forces the second-to-last
      -- character to be '.', a contradiction
      exfalso
      have hs' : (sign ++ ip ++ '.' :: fp1) ++ [c2, c] = t ++ ['.', '0'] := by
        simpa using hs
      have hrev := congrArg List.reverse hs'
      simp only [List.reverse_append] at hrev
      have hdot : c2 = ('.' : Char) := by
        simp only [List.reverse_cons, List.reverse_nil] at hrev
        have h2 := congrArg (fun l => l.get? 1) hrev
        simpa using h2
      exact digit_ne_dot (hfpd c2 (by simp)) hdot

/-- Any rendered fixed-point value, after trimming, is a well-formed
display. -/
theorem dispOKb_trim_fmtRender (scaled : ℤ) (d : ℕ) :
    dispOKb (trimDotZero (fmtRender scaled d)) := by
  unfold fmtRender
  split
  · rw [trimDotZero_of_not_mem _ (dot_not_mem_intChars scaled)]
    exact dispOKb_intChars scaled
  · refine dispOKb_trim_dotted _ _ _ ?_ (natCharsF_ne_nil _ _) ?_ ?_ ?_
    · split
      · right; rfl
      · left; rfl
    · exact fun ch hch => natCharsF_digits _ _ ch hch
    · intro h
      exact natCharsF_ne_nil _ _ (List.append_eq_nil.mp h).2
    · intro ch hch
      rcases List.mem_append.mp hch with h | h
      · rw [List.eq_of_mem_replicate h]
        exact ⟨le_refl _, by decide⟩
      · exact natCharsF_digits _ _ ch h

/-- The formatted-and-trimmed display of any value is well formed. -/
theorem dispOKb_trim_fmtShortest (p : ℕ) (v : ℚ) :
    dispOKb (trimDotZero (fmtShortest p v)) := by
  unfold fmtShortest
  exact dispOKb_trim_fmtRender _ _

/-- `"0"` is a well-formed display. -/
theorem dispOKb_zero : dispOKb ['0'] :=
  ⟨[], ['0'], .inl rfl, rfl, by simp, by simp, by intro ch hch; simp at hch; subst hch; left; exact ⟨le_refl _, by decide⟩⟩

/-- Appending a digit, or a point to a point-free display, keeps the
display well formed. -/
theorem dispOKb_append (s : List Char) (r : Char) (h : dispOKb s)
    (hr : ('0' ≤ r ∧ r ≤ '9') ∨ (r = '.' ∧ '.' ∉ s)) : dispOKb (s ++ [r]) := by
  obtain ⟨sign, body, hsign, rfl, hne, hcount, hchars⟩ := h
  refine ⟨sign, body ++ [r], hsign, by simp, by simp, ?_, ?_⟩
  · rcases hr with hdig | ⟨rfl, hnot⟩
    · rw [List.count_append]
      have : List.count '.' [r] = 0 := by
        simp [List.count_singleton']
        exact fun he => absurd he (digit_ne_dot hdig)
      omega
    · have hnotb : '.' ∉ body := fun hm => hnot (by simp [hm])
      rw [List.count_append]
      simp [List.count_eq_zero.mpr hnotb]
  · intro ch hch
    rcases List.mem_append.mp hch with hm | hm
    · exact hchars ch hm
    · simp only [List.mem_singleton] at hm
      subst hm
      rcases hr with hdig | ⟨rfl, _⟩
      · exact .inl hdig
      · exact .inr rfl

/-- Stripping the leading minus of a well-formed display that starts with
one leaves a well-formed display. -/
theorem dispOKb_strip_minus (rest : List Char) (h : dispOKb ('-' :: rest)) :
    dispOKb rest := by
  obtain ⟨sign, body, hsign, heq, hne, hcount, hchars⟩ := h
  rcases hsign with rfl | rfl
  · simp only [List.nil_append] at heq
    cases body with
    | nil => cases hne rfl
    | cons b bs =>
      injection heq with h1 _
      rcases hchars b (by simp) with hd | hd
      · exact absurd h1.symm (digit_ne_minus hd)
      · rw [hd] at h1; cases h1
  · simp only [List.cons_append, List.nil_append] at heq
    injection heq with _ h2
    exact ⟨[], body, .inl rfl, by simp [h2], hne, hcount, hchars⟩

/-- Prepending a minus to an unsigned well-formed display keeps it well
formed. -/
theorem dispOKb_add_minus (s : List Char) (h : dispOKb s)
    (hhd : ∀ rest, s ≠ '-' :: rest) : dispOKb ('-' :: s) := by
  obtain ⟨sign, body, hsign, rfl, hne, hcount, hchars⟩ := h
  rcases hsign with rfl | rfl
  · exact ⟨['-'], body, .inr rfl, by simp, hne, hcount, hchars⟩
  · exact absurd rfl (hhd body)

/-- `ProcessOperand` preserves the state invariant. -/
theorem calcInv_processOperand (c : Calc) (r : Char) (h : CalcInv c) :
    CalcInv (processOperand c r).1 := by
  unfold processOperand
  split
  · exact h
  · next hg =>
    rw [not_not] at hg
    have h1 : CalcInv (sentinelReset c)
        ∧ ((sentinelReset c).display = c.display ∨ (sentinelReset c).display = ['0']) := by
      unfold sentinelReset
      split
      · exact ⟨⟨dispOKb_zero, .inl rfl, fun hne => absurd rfl hne⟩, .inr rfl⟩
      · exact ⟨h, .inl rfl⟩
    have h2 : CalcInv (operandReset (sentinelReset c))
        ∧ ((operandReset (sentinelReset c)).display = c.display
            ∨ (operandReset (sentinelReset c)).display = ['0']) := by
      unfold operandReset
      split
      · next hcond => exact ⟨⟨dispOKb_zero, .inr rfl, fun _ => hcond.1⟩, .inr rfl⟩
      · exact h1
    have hdotfree : r = '.' → '.' ∉ (operandReset (sentinelReset c)).display := by
      intro hr hmem
      rcases h2.2 with he | he
      · rw [he] at hmem
        rcases hg with hgd | hgdot
        · exact digit_ne_dot hgd hr
        · exact hgdot.2 (List.elem_iff.mpr hmem)
      · rw [he] at hmem
        simp only [List.mem_singleton] at hmem
        cases hmem
    obtain ⟨⟨hd2, hop12, himp2⟩, _⟩ := h2
    unfold operandAppend
    split
    · next hcond =>
      refine ⟨⟨[], [r], .inl rfl, rfl, by simp, ?_, ?_⟩, hop12, himp2⟩
      · have hr : r ≠ '.' := hcond.2
        have hz : List.count '.' [r] = 0 :=
          List.count_eq_zero.mpr (by simp only [List.mem_singleton]; exact fun h => hr h.symm)
        rw [hz]
        decide
      · intro ch hch
        simp only [List.mem_singleton] at hch
        subst hch
        rcases hg with hgd | hgdot
        · exact .inl hgd
        · exact absurd hgdot.1 hcond.2
    · exact ⟨dispOKb_append _ _ hd2 (by
        rcases hg with hgd | hgdot
        · exact .inl hgd
        · exact .inr ⟨hgdot.1, hdotfree hgdot.1⟩), hop12, himp2⟩

/-- `calcResult` fails only on a zero second operand. -/
theorem calcResult_eq_none (a b : ℚ) (op : Char) (h : calcResult a b op = none) :
    b = 0 := by
  unfold calcResult at h
  split at h
  · cases h
  · split at h
    · cases h
    · split at h
      · cases h
      · split at h
        · split at h
          · next hb => exact hb
          · cases h
        · split at h
          · split at h
            · next hb => exact hb
            · cases h
          · cases h

/-- Every state produced by `finishCalc` satisfies the invariant: it is a
full reset with a well-formed formatted display. -/
theorem calcInv_finishCalc (res : ℚ) (p : ℕ) : CalcInv (finishCalc res p) := by
  unfold finishCalc
  exact ⟨dispOKb_trim_fmtShortest _ _, .inl rfl, fun hne => absurd rfl hne⟩

/-- `calculate` preserves the state invariant. -/
theorem calcInv_calculate (c : Calc) (h : CalcInv c) : CalcInv (calculate c).1 := by
  unfold calculate
  cases hop1 : c.op1 with
  | none => exact h
  | some w =>
    dsimp only
    cases hp : parseF c.display with
    | none => exact h
    | some b =>
      dsimp only
      cases hres : calcResult (c.op0.getD 0) b (c.oper.getD '?') with
      | none =>
        dsimp only
        have hb : b = 0 := calcResult_eq_none _ _ _ hres
        subst hb
        exact ⟨h.1, .inr rfl,
          fun _ => h.2.2 (by rw [hop1]; exact fun hx => Option.noConfusion hx)⟩
      | some rp =>
        obtain ⟨res, prec⟩ := rp
        dsimp only
        exact calcInv_finishCalc res prec

/-- `ProcessOperator` preserves the state invariant. -/
theorem calcInv_processOperator (c : Calc) (r : Char) (h : CalcInv c) :
    CalcInv (processOperator c r).1 := by
  unfold processOperator
  split
  · exact ⟨dispOKb_zero, h.2.1, h.2.2⟩
  · split
    · split
      · exact h
      · split
        · next rest heq => exact ⟨dispOKb_strip_minus rest (heq ▸ h.1), h.2.1, h.2.2⟩
        · next hne =>
          exact ⟨dispOKb_add_minus _ h.1 (fun rest hr => hne rest hr), h.2.1, h.2.2⟩
    · split
      · exact calcInv_calculate c h
      · split
        · exact h
        · cases hp : parseF c.display with
          | none => exact h
          | some v => exact ⟨h.1, h.2.1, fun _ => by simp⟩

/-- Every state reachable from `NewCalculator()` satisfies the invariant. -/
theorem calcInv_reach (c : Calc) (h : ReachCalc c) : CalcInv c := by
  induction h with
  | refl => exact ⟨dispOKb_zero, .inl rfl, fun hne => absurd rfl hne⟩
  | tail _ hstep ih =>
    obtain ⟨r, hc | hc⟩ := hstep
    · rw [hc]; exact calcInv_processOperand _ r ih
    · rw [hc]; exact calcInv_processOperator _ r ih

/-- C7: the display of a fresh engine is `"0"`, and on every reachable
state the display is nonempty and contains at most one decimal point;
every operation preserves this. -/
theorem display_invariants :
    initCalc.display = ['0']
    ∧ ∀ c, ReachCalc c → c.display ≠ [] ∧ c.display.count '.' ≤ 1 := by
  refine ⟨rfl, fun c h => ?_⟩
  obtain ⟨⟨sign, body, hsign, heq, hne, hcount, _⟩, _, _⟩ := calcInv_reach c h
  rw [heq]
  constructor
  · rcases hsign with rfl | rfl
    · simpa using hne
    · simp
  · rw [List.count_append]
    have hs0 : List.count '.' sign = 0 := by
      rcases hsign with rfl | rfl
      · rfl
      · decide
    omega

/-- Witness for `display_invariants` at the initial state. -/
theorem display_invariants_witness :
    initCalc.display ≠ [] ∧ initCalc.display.count '.' ≤ 1 :=
  display_invariants.2 initCalc Relation.ReflTransGen.refl

/-- Feeding any token is an engine step. -/
theorem calcStep_applyTok (c : Calc) (r : Char) : CalcStep c (applyTok c r) := by
  unfold applyTok
  split
  · exact ⟨r, .inl rfl⟩
  · exact ⟨r, .inr rfl⟩

/-- Every state built by a token run is reachable. -/
theorem reach_runTokens (ts : List Char) : ReachCalc (runTokens ts) := by
  induction ts using List.reverseRecOn with
  | nil => exact .refl
  | append_singleton ts r ih =>
    have : runTokens (ts ++ [r]) = applyTok (runTokens ts) r := by
      unfold runTokens
      rw [List.foldl_append, List.foldl_cons, List.foldl_nil]
    rw [this]
    exact Relation.ReflTransGen.tail ih (calcStep_applyTok _ r)

/-- C2: on every reachable engine state and every token, a failing
`ProcessOperand` or `ProcessOperator` call (Unsupported or DivisionByZero)
returns the state exactly as it was — no field of the engine is changed. -/
theorem errors_leave_state_unchanged (c : Calc) (h : ReachCalc c) (r : Char) :
    ((processOperand c r).2.isSome = true → (processOperand c r).1 = c)
    ∧ ((processOperator c r).2.isSome = true → (processOperator c r).1 = c) := by
  have hinv := calcInv_reach c h
  constructor
  · unfold processOperand
    split
    · intro _; rfl
    · intro herr; simp at herr
  · unfold processOperator
    split
    · intro herr; simp at herr
    · split
      · split
        · intro herr; simp at herr
        · split
          · intro herr; simp at herr
          · intro herr; simp at herr
      · split
        · unfold calculate
          cases hop1 : c.op1 with
          | none => intro _; rfl
          | some w =>
            dsimp only
            cases hp : parseF c.display with
            | none => intro _; rfl
            | some b =>
              dsimp only
              cases hres : calcResult (c.op0.getD 0) b (c.oper.getD '?') with
              | none =>
                dsimp only
                intro _
                have hb : b = 0 := calcResult_eq_none _ _ _ hres
                subst hb
                have hc : c.op1 = some 0 := by
                  rcases hinv.2.1 with h0 | h0
                  · rw [hop1] at h0; cases h0
                  · exact h0
                rw [← hc]
              | some rp =>
                obtain ⟨res, prec⟩ := rp
                dsimp only
                intro herr; simp at herr
        · split
          · intro _; rfl
          · cases hp : parseF c.display with
            | none => intro _; rfl
            | some v =>
              dsimp only
              intro herr; simp at herr

/-- Witness for `errors_leave_state_unchanged`: pressing `=` on `1 / 0`
fails with DivisionByZero and leaves the engine exactly as it was. -/
theorem errors_leave_state_unchanged_witness :
    (processOperator (runTokens "1/0".toList) '=').1 = runTokens "1/0".toList :=
  (errors_leave_state_unchanged (runTokens "1/0".toList)
    (reach_runTokens _) '=').2 (by decide)

/-! ### Correctness of the rounding layer -/

/-- `nbitsF` of zero is zero for every fuel. -/
theorem nbitsF_zero (fuel : ℕ) : nbitsF fuel 0 = 0 := by
  cases fuel <;> rfl

/-- Under the fuel bound, `nbitsF` computes the binary length:
`2 ^ (len - 1) ≤ n < 2 ^ len`. -/
theorem nbitsF_spec (fuel : ℕ) : ∀ n, 0 < n → n < 2 ^ fuel →
    2 ^ (nbitsF fuel n - 1) ≤ n ∧ n < 2 ^ nbitsF fuel n := by
  induction fuel with
  | zero =>
    intro n h1 h2
    simp at h2
    omega
  | succ fuel ih =>
    intro n h1 h2
    obtain ⟨k, rfl⟩ : ∃ k, n = k + 1 := ⟨n - 1, by omega⟩
    have heq : nbitsF (fuel + 1) (k + 1) = nbitsF fuel ((k + 1) / 2) + 1 := rfl
    rw [heq]
    by_cases hk : k = 0
    · subst hk
      rw [show (1 : ℕ) / 2 = 0 from rfl, nbitsF_zero]
      exact ⟨by norm_num, by norm_num⟩
    · have h12 : 0 < (k + 1) / 2 := by omega
      have h22 : (k + 1) / 2 < 2 ^ fuel := by
        have hp : (2:ℕ) ^ (fuel + 1) = 2 * 2 ^ fuel := by ring
        omega
      obtain ⟨hl, hr⟩ := ih _ h12 h22
      have hb1 : 1 ≤ nbitsF fuel ((k + 1) / 2) := by
        rcases Nat.eq_zero_or_pos (nbitsF fuel ((k + 1) / 2)) with h0 | h0
        · rw [h0] at hr; simp at hr; omega
        · exact h0
      obtain ⟨b', hb'⟩ : ∃ b', nbitsF fuel ((k + 1) / 2) = b' + 1 :=
        ⟨nbitsF fuel ((k + 1) / 2) - 1, by omega⟩
      rw [hb'] at hl hr ⊢
      simp only [Nat.add_sub_cancel] at hl ⊢
      constructor
      · have hp : (2:ℕ) ^ (b' + 1) = 2 * 2 ^ b' := by ring
        omega
      · have hp : (2:ℕ) ^ (b' + 1 + 1) = 2 * 2 ^ (b' + 1) := by ring
        omega

/-- `qpow2` agrees with the integer power of 2 in `ℚ`. -/
theorem qpow2_eq_zpow (e : ℤ) : qpow2 e = (2 : ℚ) ^ e := by
  unfold qpow2
  split
  · next h =>
    push_cast
    rw [← zpow_natCast (2 : ℚ) e.toNat, Int.toNat_of_nonneg h]
  · next h =>
    rw [Rat.mkRat_eq_div]
    push_cast
    rw [one_div, ← zpow_natCast (2 : ℚ) (-e).toNat,
      Int.toNat_of_nonneg (by omega), ← zpow_neg, neg_neg]

/-- `qpow10` agrees with the natural power of 10 in `ℚ`. -/
theorem qpow10_eq_pow (d : ℕ) : qpow10 d = (10 : ℚ) ^ d := by
  unfold qpow10
  push_cast
  rfl

/-- Bracketing property of `ilog2p`: for positive `q` within the fuel
bound, `2 ^ ilog2p q ≤ q < 2 ^ (ilog2p q + 1)`. -/
theorem ilog2p_spec (q : ℚ) (hq : 0 < q)
    (hnum : q.num.natAbs < 2 ^ nbitsFuel) (hden : q.den < 2 ^ nbitsFuel) :
    (2:ℚ) ^ ilog2p q ≤ q ∧ q < (2:ℚ) ^ (ilog2p q + 1) := by
  have hn0 : 0 < q.num.natAbs := Int.natAbs_pos.mpr (ne_of_gt (Rat.num_pos.mpr hq))
  have hd0 : 0 < q.den := q.den_pos
  obtain ⟨hnl, hnr⟩ := nbitsF_spec nbitsFuel q.num.natAbs hn0 hnum
  obtain ⟨hdl, hdr⟩ := nbitsF_spec nbitsFuel q.den hd0 hden
  have ha1 : 1 ≤ nbitsF nbitsFuel q.num.natAbs := by
    by_contra hcon
    have h0 : nbitsF nbitsFuel q.num.natAbs = 0 := by omega
    rw [h0, pow_zero] at hnr
    exact absurd hnr (Nat.not_lt.mpr hn0)
  have hb1 : 1 ≤ nbitsF nbitsFuel q.den := by
    by_contra hcon
    have h0 : nbitsF nbitsFuel q.den = 0 := by omega
    rw [h0, pow_zero] at hdr
    exact absurd hdr (Nat.not_lt.mpr hd0)
  have h1 : (q.num.natAbs : ℚ) = (q.num : ℚ) := by
    rw [show ((q.num.natAbs : ℕ) : ℚ) = ((q.num.natAbs : ℤ) : ℚ) from (Int.cast_natCast _).symm,
      Int.natAbs_of_nonneg (le_of_lt (Rat.num_pos.mpr hq))]
  have hqnd : q = (q.num.natAbs : ℚ) / (q.den : ℚ) := by
    rw [h1, Rat.num_div_den]
  have hnlQ : (2:ℚ) ^ ((nbitsF nbitsFuel q.num.natAbs : ℤ) - 1) ≤ (q.num.natAbs : ℚ) := by
    rw [show (nbitsF nbitsFuel q.num.natAbs : ℤ) - 1
        = ((nbitsF nbitsFuel q.num.natAbs - 1 : ℕ) : ℤ) by omega, zpow_natCast]
    exact_mod_cast hnl
  have hnrQ : (q.num.natAbs : ℚ) < (2:ℚ) ^ (nbitsF nbitsFuel q.num.natAbs : ℤ) := by
    rw [zpow_natCast]
    exact_mod_cast hnr
  have hdlQ : (2:ℚ) ^ ((nbitsF nbitsFuel q.den : ℤ) - 1) ≤ (q.den : ℚ) := by
    rw [show (nbitsF nbitsFuel q.den : ℤ) - 1
        = ((nbitsF nbitsFuel q.den - 1 : ℕ) : ℤ) by omega, zpow_natCast]
    exact_mod_cast hdl
  have hdrQ : (q.den : ℚ) < (2:ℚ) ^ (nbitsF nbitsFuel q.den : ℤ) := by
    rw [zpow_natCast]
    exact_mod_cast hdr
  have hlow : (2:ℚ) ^ ((nbitsF nbitsFuel q.num.natAbs : ℤ)
      - (nbitsF nbitsFuel q.den : ℤ) - 1) < q := by
    conv_rhs => rw [hqnd]
    rw [lt_div_iff₀ (by exact_mod_cast hd0)]
    calc (2:ℚ) ^ ((nbitsF nbitsFuel q.num.natAbs : ℤ) - (nbitsF nbitsFuel q.den : ℤ) - 1)
          * (q.den : ℚ)
        < (2:ℚ) ^ ((nbitsF nbitsFuel q.num.natAbs : ℤ) - (nbitsF nbitsFuel q.den : ℤ) - 1)
          * (2:ℚ) ^ (nbitsF nbitsFuel q.den : ℤ) := by
          exact mul_lt_mul_of_pos_left hdrQ (by positivity)
      _ = (2:ℚ) ^ ((nbitsF nbitsFuel q.num.natAbs : ℤ) - 1) := by
          rw [← zpow_add₀ (two_ne_zero)]
          congr 1
          ring
      _ ≤ (q.num.natAbs : ℚ) := hnlQ
  have hhigh : q < (2:ℚ) ^ ((nbitsF nbitsFuel q.num.natAbs : ℤ)
      - (nbitsF nbitsFuel q.den : ℤ) + 1) := by
    conv_lhs => rw [hqnd]
    rw [div_lt_iff₀ (by exact_mod_cast hd0)]
    calc (q.num.natAbs : ℚ) < (2:ℚ) ^ (nbitsF nbitsFuel q.num.natAbs : ℤ) := hnrQ
      _ = (2:ℚ) ^ ((nbitsF nbitsFuel q.num.natAbs : ℤ) - (nbitsF nbitsFuel q.den : ℤ) + 1)
          * (2:ℚ) ^ ((nbitsF nbitsFuel q.den : ℤ) - 1) := by
          rw [← zpow_add₀ (two_ne_zero)]
          congr 1
          ring
      _ ≤ (2:ℚ) ^ ((nbitsF nbitsFuel q.num.natAbs : ℤ) - (nbitsF nbitsFuel q.den : ℤ) + 1)
          * (q.den : ℚ) := by
          exact mul_le_mul_of_nonneg_left hdlQ (by positivity)
  unfold ilog2p
  dsimp only
  split
  · next hc =>
    rw [qpow2_eq_zpow] at hc
    exact ⟨hc, hhigh⟩
  · next hc =>
    rw [qpow2_eq_zpow, not_le] at hc
    refine ⟨le_of_lt hlow, ?_⟩
    have he : (nbitsF nbitsFuel q.num.natAbs : ℤ) - (nbitsF nbitsFuel q.den : ℤ) - 1 + 1
        = (nbitsF nbitsFuel q.num.natAbs : ℤ) - (nbitsF nbitsFuel q.den : ℤ) := by ring
    rw [he]
    exact hc

/-- `rndHE` is the identity on integers. -/
theorem rndHE_intCast (n : ℤ) : rndHE (n : ℚ) = n := by
  unfold rndHE
  rw [Int.floor_intCast, sub_self, if_pos (by norm_num)]

/-- `rndHE` moves a rational by at most one half. -/
theorem rndHE_err (x : ℚ) : |(rndHE x : ℚ) - x| ≤ 1/2 := by
  have hf1 : (⌊x⌋ : ℚ) ≤ x := Int.floor_le x
  have hf2 : x < ⌊x⌋ + 1 := Int.lt_floor_add_one x
  unfold rndHE
  rw [abs_le]
  split
  · next h => constructor <;> push_cast <;> linarith
  · next h1 =>
    split
    · next h => constructor <;> push_cast <;> linarith
    · next h2 =>
      have hr1 : ¬ (x - (⌊x⌋ : ℚ) < 1/2) := h1
      split <;> (constructor <;> push_cast <;> push_neg at hr1 h2 <;> linarith)

/-- `froundPos` is the identity on positive integers below the precision
(and the fuel bound). -/
theorem froundPos_intCast (p : ℕ) (n : ℤ) (hn : 0 < n)
    (hp : n.natAbs < 2 ^ p) (hf : n.natAbs < 2 ^ nbitsFuel) :
    froundPos p (n : ℚ) = n := by
  have hq : (0:ℚ) < (n : ℚ) := by exact_mod_cast hn
  have hnum : ((n : ℚ)).num.natAbs < 2 ^ nbitsFuel := by
    rw [Rat.num_intCast]; exact hf
  have hden : ((n : ℚ)).den < 2 ^ nbitsFuel := by
    rw [Rat.den_intCast]
    exact Nat.one_lt_two_pow_iff.mpr (by decide)
  obtain ⟨hel, her⟩ := ilog2p_spec (n : ℚ) hq hnum hden
  have hnp : (n : ℚ) < (2:ℚ) ^ (p : ℤ) := by
    have h0 : (n : ℤ) ≤ (n.natAbs : ℤ) := Int.le_natAbs
    have h1 : (n : ℚ) ≤ (n.natAbs : ℚ) := by
      rw [show ((n.natAbs : ℕ) : ℚ) = ((n.natAbs : ℤ) : ℚ) from (Int.cast_natCast _).symm]
      exact_mod_cast h0
    have h2 : (n.natAbs : ℚ) < ((2 ^ p : ℕ) : ℚ) := by exact_mod_cast hp
    have h3 : ((2 ^ p : ℕ) : ℚ) = (2:ℚ) ^ (p : ℤ) := by
      push_cast
      rw [zpow_natCast]
    linarith
  have hep : ilog2p (n : ℚ) < (p : ℤ) := by
    by_contra hcon
    push_neg at hcon
    have h4 : (2:ℚ) ^ (p : ℤ) ≤ (2:ℚ) ^ ilog2p (n : ℚ) :=
      zpow_le_zpow_right₀ one_le_two hcon
    linarith
  have hs0 : 0 ≤ (p : ℤ) - 1 - ilog2p (n : ℚ) := by omega
  have hx : (n : ℚ) * qpow2 ((p : ℤ) - 1 - ilog2p (n : ℚ))
      = ((n * 2 ^ ((p : ℤ) - 1 - ilog2p (n : ℚ)).toNat : ℤ) : ℚ) := by
    rw [qpow2_eq_zpow]
    push_cast
    rw [← zpow_natCast (2:ℚ), Int.toNat_of_nonneg hs0]
  unfold froundPos
  rw [hx, rndHE_intCast, qpow2_eq_zpow]
  push_cast
  rw [← zpow_natCast (2:ℚ) ((p : ℤ) - 1 - ilog2p (n : ℚ)).toNat,
    Int.toNat_of_nonneg hs0, mul_assoc, ← zpow_add₀ (two_ne_zero)]
  simp

/-- `fround` is the identity on integers below the precision (and the fuel
bound): such values are exactly representable. -/
theorem fround_intCast (p : ℕ) (n : ℤ) (hp : n.natAbs < 2 ^ p)
    (hf : n.natAbs < 2 ^ nbitsFuel) : fround p (n : ℚ) = n := by
  rcases lt_trichotomy n 0 with hneg | rfl | hpos
  · have h0 : ((n : ℚ)) ≠ 0 := Int.cast_ne_zero.mpr (ne_of_lt hneg)
    have hlt : ((n : ℚ)) < 0 := by exact_mod_cast hneg
    unfold fround
    rw [if_neg h0, if_pos hlt]
    have hcast : -(n : ℚ) = ((-n : ℤ) : ℚ) := by push_cast; ring
    rw [hcast, froundPos_intCast p (-n) (by omega) (by simpa using hp) (by simpa using hf)]
    push_cast
    ring
  · simp [fround]
  · have h0 : ((n : ℚ)) ≠ 0 := Int.cast_ne_zero.mpr (ne_of_gt hpos)
    have hlt : ¬ ((n : ℚ) < 0) := by
      push_neg
      exact_mod_cast le_of_lt hpos
    unfold fround
    rw [if_neg h0, if_neg hlt]
    exact froundPos_intCast p n hpos hp hf

/-- Relative error of `froundPos`: at most one unit in the `p`-th bit. -/
theorem froundPos_err (p : ℕ) (q : ℚ) (hq : 0 < q)
    (hnum : q.num.natAbs < 2 ^ nbitsFuel) (hden : q.den < 2 ^ nbitsFuel) :
    |froundPos p q - q| ≤ q * (2:ℚ) ^ (-(p : ℤ)) := by
  obtain ⟨hel, her⟩ := ilog2p_spec q hq hnum hden
  have hqx : q * qpow2 ((p : ℤ) - 1 - ilog2p q) * qpow2 (-((p : ℤ) - 1 - ilog2p q)) = q := by
    rw [qpow2_eq_zpow, qpow2_eq_zpow, mul_assoc, ← zpow_add₀ (two_ne_zero)]
    simp
  have key : froundPos p q - q
      = ((rndHE (q * qpow2 ((p : ℤ) - 1 - ilog2p q)) : ℚ)
          - q * qpow2 ((p : ℤ) - 1 - ilog2p q))
        * qpow2 (-((p : ℤ) - 1 - ilog2p q)) := by
    unfold froundPos
    rw [sub_mul, hqx]
  rw [key, abs_mul]
  have hpow_pos : (0:ℚ) < qpow2 (-((p : ℤ) - 1 - ilog2p q)) := by
    rw [qpow2_eq_zpow]
    positivity
  rw [abs_of_pos hpow_pos]
  calc |(rndHE (q * qpow2 ((p : ℤ) - 1 - ilog2p q)) : ℚ)
        - q * qpow2 ((p : ℤ) - 1 - ilog2p q)|
        * qpow2 (-((p : ℤ) - 1 - ilog2p q))
      ≤ (1/2) * qpow2 (-((p : ℤ) - 1 - ilog2p q)) := by
        exact mul_le_mul_of_nonneg_right (rndHE_err _) (le_of_lt hpow_pos)
    _ = (2:ℚ) ^ ilog2p q * (2:ℚ) ^ (-(p : ℤ)) := by
        rw [qpow2_eq_zpow, ← zpow_add₀ (two_ne_zero : (2:ℚ) ≠ 0) (ilog2p q) (-(p : ℤ))]
        rw [show (1:ℚ)/2 = (2:ℚ) ^ (-1 : ℤ) by norm_num]
        rw [← zpow_add₀ (two_ne_zero : (2:ℚ) ≠ 0)]
        congr 1
        ring
    _ ≤ q * (2:ℚ) ^ (-(p : ℤ)) := by
        exact mul_le_mul_of_nonneg_right hel (by positivity)

/-- Relative error of `fround` on nonzero values within the fuel bound. -/
theorem fround_err (p : ℕ) (q : ℚ) (hq : q ≠ 0)
    (hnum : q.num.natAbs < 2 ^ nbitsFuel) (hden : q.den < 2 ^ nbitsFuel) :
    |fround p q - q| ≤ |q| * (2:ℚ) ^ (-(p : ℤ)) := by
  unfold fround
  rw [if_neg hq]
  split
  · next hneg =>
    have hnum' : (-q).num.natAbs < 2 ^ nbitsFuel := by
      rw [Rat.num_neg_eq_neg_num, Int.natAbs_neg]
      exact hnum
    have hden' : (-q).den < 2 ^ nbitsFuel := by
      rw [Rat.den_neg_eq_den]
      exact hden
    have herr := froundPos_err p (-q) (by linarith) hnum' hden'
    have habs : |-froundPos p (-q) - q| = |froundPos p (-q) - -q| := by
      rw [← abs_neg]
      congr 1
      ring
    rw [habs, abs_of_neg hneg]
    exact herr
  · next hpos =>
    have hq0 : 0 < q := lt_of_le_of_ne (not_lt.mp hpos) (Ne.symm hq)
    rw [abs_of_pos hq0]
    exact froundPos_err p q hq0 hnum hden

/-- `ratTrunc` is the identity on integers. -/
theorem ratTrunc_intCast (n : ℤ) : ratTrunc (n : ℚ) = n := by
  unfold ratTrunc
  split
  · exact Int.floor_intCast n
  · rw [← Int.cast_neg, Int.floor_intCast]
    ring

/-- Truncation toward zero agrees on any two points strictly between the
same consecutive integers. -/
theorem ratTrunc_eq_on_Ioo (f : ℤ) (x y : ℚ)
    (hx1 : (f : ℚ) < x) (hx2 : x < (f : ℚ) + 1)
    (hy1 : (f : ℚ) < y) (hy2 : y < (f : ℚ) + 1) :
    ratTrunc x = ratTrunc y := by
  have hfx : ⌊x⌋ = f := Int.floor_eq_iff.mpr ⟨le_of_lt hx1, by push_cast; linarith⟩
  have hfy : ⌊y⌋ = f := Int.floor_eq_iff.mpr ⟨le_of_lt hy1, by push_cast; linarith⟩
  rcases le_or_lt 0 f with hf | hf
  · have hx0 : 0 ≤ x := le_trans (by exact_mod_cast hf) (le_of_lt hx1)
    have hy0 : 0 ≤ y := le_trans (by exact_mod_cast hf) (le_of_lt hy1)
    unfold ratTrunc
    rw [if_pos hx0, if_pos hy0, hfx, hfy]
  · have hf1 : f + 1 ≤ 0 := by omega
    have hx0 : x < 0 := lt_of_lt_of_le hx2 (by exact_mod_cast hf1)
    have hy0 : y < 0 := lt_of_lt_of_le hy2 (by exact_mod_cast hf1)
    have hnx : ⌊-x⌋ = -f - 1 := by
      refine Int.floor_eq_iff.mpr ⟨by push_cast; linarith, by push_cast; linarith⟩
    have hny : ⌊-y⌋ = -f - 1 := by
      refine Int.floor_eq_iff.mpr ⟨by push_cast; linarith, by push_cast; linarith⟩
    unfold ratTrunc
    rw [if_neg (not_le.mpr hx0), if_neg (not_le.mpr hy0), hnx, hny]

/-- Numerator and denominator of an integer quotient are bounded by the
inputs. -/
theorem div_num_den_bounds (A B : ℤ) (hB : B ≠ 0) :
    ((A : ℚ) / (B : ℚ)).num.natAbs ≤ A.natAbs
    ∧ ((A : ℚ) / (B : ℚ)).den ≤ B.natAbs := by
  have hAB : (A : ℚ) / (B : ℚ) = Rat.divInt A B := (Rat.divInt_eq_div A B).symm
  constructor
  · rcases eq_or_ne A 0 with rfl | hA
    · simp
    · have h1 : (Rat.divInt A B).num ∣ A := Rat.num_dvd A hB
      have h2 : (Rat.divInt A B).num.natAbs ∣ A.natAbs := Int.natAbs_dvd_natAbs.mpr h1
      rw [hAB]
      exact Nat.le_of_dvd (Int.natAbs_pos.mpr hA) h2
  · have h1 : ((Rat.divInt A B).den : ℤ) ∣ B := Rat.den_dvd A B
    have h2 : (Rat.divInt A B).den ∣ B.natAbs := by
      have := Int.natAbs_dvd_natAbs.mpr h1
      simpa using this
    rw [hAB]
    exact Nat.le_of_dvd (Int.natAbs_pos.mpr hB) h2

/-- For integer operands of magnitude at most `2 ^ 30`, truncating the
64-bit rounded quotient gives the same integer as truncating the exact
quotient: the rounding error is smaller than the distance from the exact
quotient to any neighbouring integer. -/
theorem ratTrunc_fround_div (A B : ℤ) (hB : B ≠ 0)
    (hA30 : A.natAbs ≤ 2 ^ 30) (hB30 : B.natAbs ≤ 2 ^ 30) :
    ratTrunc (fround 64 ((A : ℚ) / (B : ℚ))) = ratTrunc ((A : ℚ) / (B : ℚ)) := by
  rcases eq_or_ne ((A : ℚ) / (B : ℚ)) 0 with hq0 | hq0
  · rw [hq0]
    unfold fround
    rw [if_pos rfl]
  · obtain ⟨hnb, hdb⟩ := div_num_den_bounds A B hB
    have hnum : ((A : ℚ) / (B : ℚ)).num.natAbs < 2 ^ nbitsFuel :=
      lt_of_le_of_lt hnb (lt_of_le_of_lt hA30
        (Nat.pow_lt_pow_right (by norm_num) (by norm_num [nbitsFuel])))
    have hden : ((A : ℚ) / (B : ℚ)).den < 2 ^ nbitsFuel :=
      lt_of_le_of_lt hdb (lt_of_le_of_lt hB30
        (Nat.pow_lt_pow_right (by norm_num) (by norm_num [nbitsFuel])))
    have herr := fround_err 64 ((A : ℚ) / (B : ℚ)) hq0 hnum hden
    have hBQ : (1:ℚ) ≤ |(B : ℚ)| := by
      have h1 : (1 : ℤ) ≤ |B| := Int.one_le_abs hB
      rw [← Int.cast_abs]
      exact_mod_cast h1
    have hB30Q : |(B : ℚ)| ≤ 2 ^ 30 := by
      have h1 : |B| ≤ (2:ℤ) ^ 30 := by
        rw [Int.abs_eq_natAbs]
        exact_mod_cast hB30
      rw [← Int.cast_abs]
      exact_mod_cast h1
    have hqabs : |(A : ℚ) / (B : ℚ)| ≤ 2 ^ 30 := by
      rw [abs_div]
      have hAQ : |(A : ℚ)| ≤ 2 ^ 30 := by
        have h1 : |A| ≤ (2:ℤ) ^ 30 := by
          rw [Int.abs_eq_natAbs]
          exact_mod_cast hA30
        rw [← Int.cast_abs]
        exact_mod_cast h1
      calc |(A : ℚ)| / |(B : ℚ)| ≤ |(A : ℚ)| / 1 := by
            exact div_le_div_of_nonneg_left (abs_nonneg _) (by norm_num) hBQ
        _ = |(A : ℚ)| := div_one _
        _ ≤ 2 ^ 30 := hAQ
    have herr2 : |fround 64 ((A : ℚ) / (B : ℚ)) - (A : ℚ) / (B : ℚ)| ≤ (2:ℚ) ^ 30 * (2:ℚ) ^ (-(64 : ℤ)) := by
      calc |fround 64 ((A : ℚ) / (B : ℚ)) - (A : ℚ) / (B : ℚ)|
          ≤ |(A : ℚ) / (B : ℚ)| * (2:ℚ) ^ (-(64 : ℤ)) := herr
        _ ≤ (2:ℚ) ^ 30 * (2:ℚ) ^ (-(64 : ℤ)) := by
            exact mul_le_mul_of_nonneg_right hqabs (by positivity)
    have herr3 : |fround 64 ((A : ℚ) / (B : ℚ)) - (A : ℚ) / (B : ℚ)| < 1 / |(B : ℚ)| := by
      have hsmall : (2:ℚ) ^ 30 * (2:ℚ) ^ (-(64 : ℤ)) < 1 / 2 ^ 30 := by
        rw [show ((2:ℚ) ^ (-(64:ℤ))) = 1 / 2 ^ 64 by
          rw [zpow_neg]
          norm_num]
        norm_num
      have hinv : (1:ℚ) / 2 ^ 30 ≤ 1 / |(B : ℚ)| := by
        apply one_div_le_one_div_of_le
        · linarith
        · exact hB30Q
      linarith
    -- the exact quotient is not an integer here or it is; split
    by_cases hint : ∃ k : ℤ, (A : ℚ) / (B : ℚ) = (k : ℚ)
    · obtain ⟨k, hk⟩ := hint
      have hk30 : k.natAbs ≤ 2 ^ 30 := by
        have hq2 : |(k : ℚ)| ≤ 2 ^ 30 := hk ▸ hqabs
        have h3 : ((|k| : ℤ) : ℚ) ≤ ((2 ^ 30 : ℤ) : ℚ) := by
          rw [Int.cast_abs]
          exact_mod_cast hq2
        have h4 : |k| ≤ (2:ℤ) ^ 30 := by exact_mod_cast h3
        rw [Int.abs_eq_natAbs] at h4
        exact_mod_cast h4
      rw [hk, fround_intCast 64 k (lt_of_le_of_lt hk30 (by norm_num))
        (lt_of_le_of_lt hk30 (by norm_num [nbitsFuel]))]
    · push_neg at hint
      set q := (A : ℚ) / (B : ℚ) with hqdef
      have hBQ0 : (B : ℚ) ≠ 0 := Int.cast_ne_zero.mpr hB
      have hint2 : ∀ k : ℤ, A ≠ k * B := by
        intro k hcon2
        apply hint k
        rw [hqdef, hcon2]
        push_cast
        rw [mul_div_assoc, div_self hBQ0, mul_one]
      have hfl : (⌊q⌋ : ℚ) < q := by
        rcases lt_or_eq_of_le (Int.floor_le q) with h | h
        · exact h
        · exact absurd h.symm (hint ⌊q⌋)
      have hfu : q < (⌊q⌋ : ℚ) + 1 := Int.lt_floor_add_one q
      -- distance from q to the surrounding integers is at least 1/|B|
      have hgap1 : 1 / |(B : ℚ)| ≤ q - (⌊q⌋ : ℚ) := by
        have hne : A - ⌊q⌋ * B ≠ 0 := fun hcon => hint2 ⌊q⌋ (by omega)
        have heq : q - (⌊q⌋ : ℚ) = ((A - ⌊q⌋ * B : ℤ) : ℚ) / (B : ℚ) := by
          rw [hqdef]
          field_simp
          try push_cast
          try ring
        have hpos : 0 < q - (⌊q⌋ : ℚ) := by linarith
        have habs : q - (⌊q⌋ : ℚ) = |((A - ⌊q⌋ * B : ℤ) : ℚ)| / |(B : ℚ)| := by
          rw [← abs_div, ← heq, abs_of_pos hpos]
        rw [habs]
        apply div_le_div_of_nonneg_right ?_ (by linarith)
        · have h1 : (1 : ℤ) ≤ |A - ⌊q⌋ * B| := Int.one_le_abs hne
          rw [← Int.cast_abs]
          exact_mod_cast h1
      have hgap2 : 1 / |(B : ℚ)| ≤ (⌊q⌋ : ℚ) + 1 - q := by
        have hne : (⌊q⌋ + 1) * B - A ≠ 0 := fun hcon => hint2 (⌊q⌋ + 1) (by omega)
        have heq : (⌊q⌋ : ℚ) + 1 - q = (((⌊q⌋ + 1) * B - A : ℤ) : ℚ) / (B : ℚ) := by
          rw [hqdef]
          field_simp
          try push_cast
          try ring
        have hpos : 0 < (⌊q⌋ : ℚ) + 1 - q := by linarith
        have habs : (⌊q⌋ : ℚ) + 1 - q = |(((⌊q⌋ + 1) * B - A : ℤ) : ℚ)| / |(B : ℚ)| := by
          rw [← abs_div, ← heq, abs_of_pos hpos]
        rw [habs]
        apply div_le_div_of_nonneg_right ?_ (by linarith)
        · have h1 : (1 : ℤ) ≤ |(⌊q⌋ + 1) * B - A| := Int.one_le_abs hne
          rw [← Int.cast_abs]
          exact_mod_cast h1
      have hmem1 : (⌊q⌋ : ℚ) < fround 64 q := by
        have h1 := abs_lt.mp herr3
        linarith [h1.1]
      have hmem2 : fround 64 q < (⌊q⌋ : ℚ) + 1 := by
        have h1 := abs_lt.mp herr3
        linarith [h1.2]
      exact ratTrunc_eq_on_Ioo ⌊q⌋ (fround 64 q) q hmem1 hmem2 hfl hfu

/-- Truncation toward zero does not increase magnitude. -/
theorem ratTrunc_abs_le (x : ℚ) (N : ℤ) (h : |x| ≤ (N : ℚ)) : |ratTrunc x| ≤ N := by
  unfold ratTrunc
  split
  · next hx =>
    rw [abs_of_nonneg hx] at h
    have h1 : 0 ≤ ⌊x⌋ := Int.floor_nonneg.mpr hx
    have h2 : ⌊x⌋ ≤ N := by
      have := Int.floor_le_floor h
      rwa [Int.floor_intCast] at this
    rw [abs_of_nonneg h1]
    exact h2
  · next hx =>
    push_neg at hx
    rw [abs_of_neg hx] at h
    have h1 : 0 ≤ ⌊-x⌋ := Int.floor_nonneg.mpr (by linarith)
    have h2 : ⌊-x⌋ ≤ N := by
      have := Int.floor_le_floor h
      rwa [Int.floor_intCast] at this
    rw [abs_neg, abs_of_nonneg h1]
    exact h2

/-- On an integer value within the precision, the shortest-format text is
the plain integer decimal text (zero fractional digits round-trip, and the
trailing-`".0"` trim does nothing). -/
theorem trim_fmtShortest_intCast (p : ℕ) (m : ℤ)
    (hp : m.natAbs < 2 ^ p) (hf : m.natAbs < 2 ^ nbitsFuel) :
    trimDotZero (fmtShortest p (m : ℚ)) = intChars m := by
  have hq1 : qpow10 0 = 1 := by
    unfold qpow10
    norm_num
  have hm0 : (m : ℚ) * qpow10 0 = ((m : ℤ) : ℚ) := by rw [hq1, mul_one]
  have h0 : fround p ((rndHE ((m : ℚ) * qpow10 0) : ℚ) / qpow10 0) = (m : ℚ) := by
    rw [hm0, rndHE_intCast, hq1, div_one, fround_intCast p m hp hf]
  have hfind : List.find?
      (fun d => decide (fround p ((rndHE ((m : ℚ) * qpow10 d) : ℚ) / qpow10 d) = (m : ℚ)))
      [0, 1] = some 0 := by
    simp [List.find?, h0]
  unfold fmtShortest
  dsimp only
  rw [Rat.den_intCast]
  rw [show nbits 1 = 1 from rfl]
  rw [show List.range (1 + 1) = [0, 1] from rfl]
  rw [hfind, Option.getD_some]
  rw [hm0, rndHE_intCast]
  rw [show fmtRender m 0 = intChars m from by unfold fmtRender; rw [if_pos rfl]]
  exact trimDotZero_of_not_mem _ (dot_not_mem_intChars m)

/-- `ProcessOperator('=')` is exactly `calculate`. -/
theorem processOperator_eq_calc (c : Calc) : processOperator c '=' = calculate c := by
  unfold processOperator
  rw [if_neg (by decide), if_neg (by decide), if_pos rfl]

/-- `calculate` on a state whose operator dispatch succeeds. -/
theorem calculate_some (c : Calc) (w b res : ℚ) (prec : ℕ)
    (hw : c.op1 = some w) (hp : parseF c.display = some b)
    (hres : calcResult (c.op0.getD 0) b (c.oper.getD '?') = some (res, prec)) :
    calculate c = (finishCalc res prec, none) := by
  unfold calculate
  rw [hw]
  dsimp only
  rw [hp]
  dsimp only
  rw [hres]

/-- `calculate` on a state whose operator dispatch reports division by
zero: the parsed second operand is stored, then the error is returned. -/
theorem calculate_divzero (c : Calc) (w b : ℚ)
    (hw : c.op1 = some w) (hp : parseF c.display = some b)
    (hres : calcResult (c.op0.getD 0) b (c.oper.getD '?') = none) :
    calculate c = ({ c with op1 := some b }, some .divisionByZero) := by
  unfold calculate
  rw [hw]
  dsimp only
  rw [hp]
  dsimp only
  rw [hres]

/-- The `'+'` case of the operator switch. -/
theorem calcResult_add (a b : ℚ) : calcResult a b '+' = some (fround 64 (a + b), 64) := by
  unfold calcResult
  rw [if_pos rfl]

/-- The `'-'` case of the operator switch. -/
theorem calcResult_sub (a b : ℚ) : calcResult a b '-' = some (fround 64 (a - b), 64) := by
  unfold calcResult
  rw [if_neg (by decide), if_pos rfl]

/-- The `'*'` case of the operator switch. -/
theorem calcResult_mul (a b : ℚ) : calcResult a b '*' = some (fround 64 (a * b), 64) := by
  unfold calcResult
  rw [if_neg (by decide), if_neg (by decide), if_pos rfl]

/-- The `'/'` case of the operator switch with a zero second operand. -/
theorem calcResult_div_zero (a : ℚ) : calcResult a 0 '/' = none := by
  unfold calcResult
  rw [if_neg (by decide), if_neg (by decide), if_neg (by decide), if_pos rfl, if_pos rfl]

/-- The `'%'` case of the operator switch with a nonzero second operand,
with the truncated quotient and threaded precisions spelled out. -/
theorem calcResult_mod (a b : ℚ) (hb : b ≠ 0) :
    calcResult a b '%'
      = some (fround (max 64 (max (nbits (ratTrunc (fround 64 (a / b))).natAbs) 64))
            (a - fround (max (nbits (ratTrunc (fround 64 (a / b))).natAbs) 64)
              ((ratTrunc (fround 64 (a / b)) : ℚ) * b)),
          max 64 (max (nbits (ratTrunc (fround 64 (a / b))).natAbs) 64)) := by
  unfold calcResult
  rw [if_neg (by decide), if_neg (by decide), if_neg (by decide), if_neg (by decide),
    if_pos rfl, if_neg hb]

/-- `finishCalc` on an integer value within the precision resets the
engine with the integer's decimal text on the display. -/
theorem finishCalc_intCast (n : ℤ) (p : ℕ) (hp : n.natAbs < 2 ^ p)
    (hf : n.natAbs < 2 ^ nbitsFuel) :
    finishCalc (n : ℚ) p = ⟨intChars n, none, none, none⟩ := by
  unfold finishCalc
  dsimp only
  by_cases h : (n : ℚ) = 0
  · rw [if_pos h, if_pos h]
    have hn : n = 0 := by exact_mod_cast h
    subst hn
    rw [show ((0:ℚ)) = ((0 : ℤ) : ℚ) from by norm_num,
      trim_fmtShortest_intCast 53 0 (by norm_num) (by norm_num)]
  · rw [if_neg h, if_neg h, trim_fmtShortest_intCast p n hp hf]

/-- Magnitude bound on an integer quotient in `ℚ`. -/
theorem div_abs_le_pow30 (A B : ℤ) (hB : B ≠ 0) (hA30 : A.natAbs ≤ 2 ^ 30) :
    |(A : ℚ) / (B : ℚ)| ≤ ((2 ^ 30 : ℤ) : ℚ) := by
  have hBQ : (1:ℚ) ≤ |(B : ℚ)| := by
    have h1 : (1 : ℤ) ≤ |B| := Int.one_le_abs hB
    rw [← Int.cast_abs]
    exact_mod_cast h1
  have hAQ : |(A : ℚ)| ≤ ((2 ^ 30 : ℤ) : ℚ) := by
    have h1 : |A| ≤ (2:ℤ) ^ 30 := by
      rw [Int.abs_eq_natAbs]
      exact_mod_cast hA30
    rw [← Int.cast_abs]
    exact_mod_cast h1
  rw [abs_div]
  calc |(A : ℚ)| / |(B : ℚ)| ≤ |(A : ℚ)| / 1 :=
        div_le_div_of_nonneg_left (abs_nonneg _) (by norm_num) hBQ
    _ = |(A : ℚ)| := div_one _
    _ ≤ ((2 ^ 30 : ℤ) : ℚ) := hAQ

/-- C1 amended: with `'%'` recorded, first operand `a` and a second operand
`b ≠ 0` parsed from the display — integers of magnitude at most `2 ^ 30`,
where the 64-bit arithmetic is exact — `ProcessOperator('=')` succeeds and
displays the decimal text of the truncated remainder
`a - b * trunc(a / b)`: the quotient is truncated toward zero
(`big.Float.Int`), not floored. -/
theorem modulo_truncated (c : Calc) (A B : ℤ)
    (hop : c.oper = some '%') (h0 : c.op0 = some (A : ℚ)) (h1 : c.op1.isSome = true)
    (hp : parseF c.display = some (B : ℚ))
    (hA : A.natAbs ≤ 2 ^ 30) (hB : B.natAbs ≤ 2 ^ 30) (hBne : B ≠ 0) :
    processOperator c '='
      = (⟨intChars (A - B * ratTrunc ((A : ℚ) / (B : ℚ))), none, none, none⟩, none) := by
  obtain ⟨w, hw⟩ := Option.isSome_iff_exists.mp h1
  have hBQ : ((B : ℤ) : ℚ) ≠ 0 := Int.cast_ne_zero.mpr hBne
  have hget0 : c.op0.getD 0 = (A : ℚ) := by rw [h0]; rfl
  set T : ℤ := ratTrunc ((A : ℚ) / (B : ℚ)) with hT
  have htr : ratTrunc (fround 64 ((A : ℚ) / (B : ℚ))) = T := by
    rw [hT]
    exact ratTrunc_fround_div A B hBne hA hB
  have hTnat : T.natAbs ≤ 2 ^ 30 := by
    have habs := ratTrunc_abs_le ((A : ℚ) / (B : ℚ)) (2 ^ 30) (div_abs_le_pow30 A B hBne hA)
    rw [Int.abs_eq_natAbs] at habs
    rw [hT]
    omega
  have hres := calcResult_mod (A : ℚ) (B : ℚ) hBQ
  rw [htr] at hres
  have hTB : ((T : ℤ) : ℚ) * ((B : ℤ) : ℚ) = ((T * B : ℤ) : ℚ) := by push_cast; ring
  have hTBbound : (T * B).natAbs ≤ 2 ^ 60 := by
    rw [Int.natAbs_mul]
    calc T.natAbs * B.natAbs ≤ 2 ^ 30 * 2 ^ 30 := Nat.mul_le_mul hTnat hB
      _ = 2 ^ 60 := by norm_num
  have hfp64 : (2:ℕ) ^ 64 ≤ 2 ^ max (nbits T.natAbs) 64 :=
    Nat.pow_le_pow_right (by norm_num) (le_max_right _ _)
  have hmulexact : fround (max (nbits T.natAbs) 64) ((T * B : ℤ) : ℚ) = ((T * B : ℤ) : ℚ) :=
    fround_intCast _ _ (lt_of_le_of_lt hTBbound (lt_of_lt_of_le (by norm_num) hfp64))
      (lt_of_le_of_lt hTBbound (by norm_num [nbitsFuel]))
  have hsub : ((A : ℤ) : ℚ) - ((T * B : ℤ) : ℚ) = ((A - T * B : ℤ) : ℚ) := by push_cast; ring
  have hsubbound : (A - T * B).natAbs ≤ 2 ^ 61 := by
    have h1 := Int.natAbs_sub_le A (T * B)
    omega
  have hmax64 : (2:ℕ) ^ 64 ≤ 2 ^ max 64 (max (nbits T.natAbs) 64) :=
    Nat.pow_le_pow_right (by norm_num) (le_max_left _ _)
  have hresexact : fround (max 64 (max (nbits T.natAbs) 64)) ((A - T * B : ℤ) : ℚ)
      = ((A - T * B : ℤ) : ℚ) :=
    fround_intCast _ _ (lt_of_le_of_lt hsubbound (lt_of_lt_of_le (by norm_num) hmax64))
      (lt_of_le_of_lt hsubbound (by norm_num [nbitsFuel]))
  rw [processOperator_eq_calc]
  have hres2 : calcResult (c.op0.getD 0) ((B : ℤ) : ℚ) (c.oper.getD '?')
      = some (((A - T * B : ℤ) : ℚ), max 64 (max (nbits T.natAbs) 64)) := by
    rw [hget0, hop, Option.getD_some, hres, hTB, hmulexact, hsub, hresexact]
  rw [calculate_some c w ((B : ℤ) : ℚ) _ _ hw hp hres2]
  rw [finishCalc_intCast (A - T * B) _
    (lt_of_le_of_lt hsubbound (lt_of_lt_of_le (by norm_num) hmax64))
    (lt_of_le_of_lt hsubbound (by norm_num [nbitsFuel]))]
  rw [show A - T * B = A - B * T from by ring]

/-- Witness for `modulo_truncated`: the engine state reached by `7`, `±`,
`%`, `2` (operand `-7`, operator `'%'`, display `"2"`), then `=`. -/
theorem modulo_truncated_witness :
    processOperator ⟨['2'], some ((-7 : ℤ) : ℚ), some 0, some '%'⟩ '='
      = (⟨intChars ((-7 : ℤ) - 2 * ratTrunc (((-7 : ℤ) : ℚ) / ((2 : ℤ) : ℚ))),
          none, none, none⟩, none)
    ∧ intChars ((-7 : ℤ) - 2 * ratTrunc (((-7 : ℤ) : ℚ) / ((2 : ℤ) : ℚ))) = "-1".toList :=
  ⟨modulo_truncated ⟨['2'], some ((-7 : ℤ) : ℚ), some 0, some '%'⟩ (-7) 2
    rfl rfl rfl (by decide) (by decide) (by decide) (by decide), by decide⟩

/-- C3 amended: the engine computes in 64-bit binary floating point, which
is exact on integer operands of magnitude at most `2 ^ 30`: `'+'`, `'-'`,
`'*'` display the exact decimal text of the integer result, and `'/'`
fails with `DivisionByZero` when the second operand is zero (storing the
parsed zero operand, nothing else). -/
theorem addsubmul_exact_on_ints (c : Calc) (A B : ℤ) (op : Char)
    (hop : c.oper = some op) (h0 : c.op0 = some (A : ℚ)) (h1 : c.op1.isSome = true)
    (hp : parseF c.display = some (B : ℚ))
    (hA : A.natAbs ≤ 2 ^ 30) (hB : B.natAbs ≤ 2 ^ 30) :
    (op = '+' → processOperator c '=' = (⟨intChars (A + B), none, none, none⟩, none))
    ∧ (op = '-' → processOperator c '=' = (⟨intChars (A - B), none, none, none⟩, none))
    ∧ (op = '*' → processOperator c '=' = (⟨intChars (A * B), none, none, none⟩, none))
    ∧ (op = '/' → B = 0 →
        processOperator c '=' = ({ c with op1 := some ((B : ℤ) : ℚ) }, some .divisionByZero)) := by
  obtain ⟨w, hw⟩ := Option.isSome_iff_exists.mp h1
  have hget0 : c.op0.getD 0 = (A : ℚ) := by rw [h0]; rfl
  refine ⟨?_, ?_, ?_, ?_⟩
  · rintro rfl
    rw [processOperator_eq_calc]
    have hcastAB : ((A : ℤ) : ℚ) + ((B : ℤ) : ℚ) = ((A + B : ℤ) : ℚ) := by push_cast; ring
    have hbound : (A + B).natAbs ≤ 2 ^ 31 := by
      have h1 := Int.natAbs_add_le A B
      omega
    have hexact : fround 64 ((A + B : ℤ) : ℚ) = ((A + B : ℤ) : ℚ) :=
      fround_intCast 64 _ (lt_of_le_of_lt hbound (by norm_num))
        (lt_of_le_of_lt hbound (by norm_num [nbitsFuel]))
    have hres : calcResult (c.op0.getD 0) ((B : ℤ) : ℚ) (c.oper.getD '?')
        = some (((A + B : ℤ) : ℚ), 64) := by
      rw [hget0, hop, Option.getD_some, calcResult_add, hcastAB, hexact]
    rw [calculate_some c w ((B : ℤ) : ℚ) _ _ hw hp hres]
    rw [finishCalc_intCast (A + B) 64 (lt_of_le_of_lt hbound (by norm_num))
      (lt_of_le_of_lt hbound (by norm_num [nbitsFuel]))]
  · rintro rfl
    rw [processOperator_eq_calc]
    have hcastAB : ((A : ℤ) : ℚ) - ((B : ℤ) : ℚ) = ((A - B : ℤ) : ℚ) := by push_cast; ring
    have hbound : (A - B).natAbs ≤ 2 ^ 31 := by
      have h1 := Int.natAbs_sub_le A B
      omega
    have hexact : fround 64 ((A - B : ℤ) : ℚ) = ((A - B : ℤ) : ℚ) :=
      fround_intCast 64 _ (lt_of_le_of_lt hbound (by norm_num))
        (lt_of_le_of_lt hbound (by norm_num [nbitsFuel]))
    have hres : calcResult (c.op0.getD 0) ((B : ℤ) : ℚ) (c.oper.getD '?')
        = some (((A - B : ℤ) : ℚ), 64) := by
      rw [hget0, hop, Option.getD_some, calcResult_sub, hcastAB, hexact]
    rw [calculate_some c w ((B : ℤ) : ℚ) _ _ hw hp hres]
    rw [finishCalc_intCast (A - B) 64 (lt_of_le_of_lt hbound (by norm_num))
      (lt_of_le_of_lt hbound (by norm_num [nbitsFuel]))]
  · rintro rfl
    rw [processOperator_eq_calc]
    have hcastAB : ((A : ℤ) : ℚ) * ((B : ℤ) : ℚ) = ((A * B : ℤ) : ℚ) := by push_cast; ring
    have hbound : (A * B).natAbs ≤ 2 ^ 60 := by
      rw [Int.natAbs_mul]
      calc A.natAbs * B.natAbs ≤ 2 ^ 30 * 2 ^ 30 := Nat.mul_le_mul hA hB
        _ = 2 ^ 60 := by norm_num
    have hexact : fround 64 ((A * B : ℤ) : ℚ) = ((A * B : ℤ) : ℚ) :=
      fround_intCast 64 _ (lt_of_le_of_lt hbound (by norm_num))
        (lt_of_le_of_lt hbound (by norm_num [nbitsFuel]))
    have hres : calcResult (c.op0.getD 0) ((B : ℤ) : ℚ) (c.oper.getD '?')
        = some (((A * B : ℤ) : ℚ), 64) := by
      rw [hget0, hop, Option.getD_some, calcResult_mul, hcastAB, hexact]
    rw [calculate_some c w ((B : ℤ) : ℚ) _ _ hw hp hres]
    rw [finishCalc_intCast (A * B) 64 (lt_of_le_of_lt hbound (by norm_num))
      (lt_of_le_of_lt hbound (by norm_num [nbitsFuel]))]
  · rintro rfl hB0
    subst hB0
    rw [processOperator_eq_calc]
    have hres : calcResult (c.op0.getD 0) ((0 : ℤ) : ℚ) (c.oper.getD '?') = none := by
      rw [hget0, hop, Option.getD_some, Int.cast_zero]
      exact calcResult_div_zero _
    exact calculate_divzero c w ((0 : ℤ) : ℚ) hw hp hres

/-- Witness for `addsubmul_exact_on_ints`: `5`, `+`, `3`, `=` displays
`"8"`. -/
theorem addsubmul_exact_on_ints_witness :
    processOperator ⟨['3'], some ((5 : ℤ) : ℚ), some 0, some '+'⟩ '='
      = (⟨intChars ((5 : ℤ) + 3), none, none, none⟩, none)
    ∧ intChars ((5 : ℤ) + 3) = "8".toList :=
  ⟨(addsubmul_exact_on_ints ⟨['3'], some ((5 : ℤ) : ℚ), some 0, some '+'⟩ 5 3 '+'
      rfl rfl rfl (by decide) (by decide) (by decide)).1 rfl, by decide⟩

/-- Witness for `backoff_interval_spec` at the capped base with a large
admissible jitter. -/
theorem backoff_interval_spec_witness :
    ((500000000 : ℤ) ≤ (nextInterval 500000000 49999999).1
    ∧ (nextInterval 500000000 49999999).1 ≤ 549999999
    ∧ backoffBase0 ≤ (nextInterval 500000000 49999999).2
    ∧ (nextInterval 500000000 49999999).2 ≤ shutdownIntervalMax
    ∧ ((2 * 500000000 ≤ shutdownIntervalMax → (nextInterval 500000000 49999999).2 = 2 * 500000000)
        ∧ (shutdownIntervalMax < 2 * 500000000 →
            (nextInterval 500000000 49999999).2 = shutdownIntervalMax))) :=
  backoff_interval_spec 500000000 49999999 (by decide) (by decide) (by decide) (by decide)
